import Mathlib

/-!
# Verification of the template-filler substitution engine

A shallow embedding, in Lean 4, of the core logic of the template-filler
service (`main.py`): the run-splicing placeholder substitution engine, the
image box-fit scaler, the structured-section expanders (sponsor block and
risk/mitigant block), and the per-paragraph passes that apply them.

Paragraph text is modelled as `List Char`; a paragraph is an ordered list of
runs, each carrying a text together with the formatting attributes the
engine reads or writes (font name, font size in points, bold flag, and the
list of pictures embedded in the run).  Exact rational arithmetic (`ℚ`)
stands in for Python floats in the dimension calculations.  Fallible code
paths are modelled with `Option`/`Except`: a Python exception that escapes a
function is an `Except.error` (or `none`), never a silent default.
-/

namespace TemplateFiller

/-- The two brace characters, written via their code points. -/
def lbrace : Char := '\x7b'

def rbrace : Char := '\x7d'

/-- Python `str.strip()` whitespace: space, tab, newline, carriage return,
vertical tab, form feed. -/
def isPySpace (c : Char) : Bool :=
  c = ' ' ∨ c = '\t' ∨ c = '\n' ∨ c = '\r' ∨ c = '\x0b' ∨ c = '\x0c'

/-- Python `str.strip()`: drop leading and trailing whitespace. -/
def pyStrip (s : List Char) : List Char :=
  ((s.dropWhile isPySpace).reverse.dropWhile isPySpace).reverse

/-- Fuel-bounded scan for `re.sub(r'\n\x7b3,\x7d', '\n\n', text)`: wherever
three or more newlines run together, drop down to exactly two.  The fuel is
structural so the function reduces in the kernel; `collapseNewlines`
supplies enough fuel for the scan to complete. -/
def collapseNlAux : Nat → List Char → List Char
  | 0, l => l
  | fuel + 1, '\n' :: '\n' :: '\n' :: rest => collapseNlAux fuel ('\n' :: '\n' :: rest)
  | fuel + 1, c :: rest => c :: collapseNlAux fuel rest
  | _ + 1, [] => []

/-- `re.sub(r'\n\x7b3,\x7d', '\n\n', text)`: collapse every maximal run of
three or more newlines down to exactly two. -/
def collapseNewlines (l : List Char) : List Char := collapseNlAux l.length l

/-- Fuel-bounded scan for `re.sub(r' \x7b2,\x7d', ' ', text)`. -/
def collapseSpAux : Nat → List Char → List Char
  | 0, l => l
  | fuel + 1, ' ' :: ' ' :: rest => collapseSpAux fuel (' ' :: rest)
  | fuel + 1, c :: rest => c :: collapseSpAux fuel rest
  | _ + 1, [] => []

/-- `re.sub(r' \x7b2,\x7d', ' ', text)`: collapse every maximal run of two or
more spaces down to one. -/
def collapseSpaces (l : List Char) : List Char := collapseSpAux l.length l

/-- `sanitize_text_content` from `main.py`: collapse 3+ newlines to 2,
collapse 2+ spaces to 1, strip every line, then strip the whole text. -/
def sanitize_text_content (text : List Char) : List Char :=
  if text = [] then text
  else
    let t1 := collapseNewlines text
    let t2 := collapseSpaces t1
    let lines := t2.splitOn '\n'
    let lines := lines.map pyStrip
    let t3 := List.intercalate ['\n'] lines
    pyStrip t3

/-- Font formatting constants from `main.py`. -/
def FONT_NAME : List Char := ("Times New Roman").toList

/-- `FONT_SIZE_11PT`, in points. -/
def FONT_SIZE_11PT : Nat := 11

/-- Page content-box constants from `main.py` (inches). -/
def MAX_WIDTH_INCHES : ℚ := 13 / 2

def MAX_HEIGHT_INCHES : ℚ := 8

/-- An image payload from the request's image map.  Base64 decoding and image
parsing are done by external libraries (`base64`, PIL); a payload is modelled
by its observable behaviour: the base64 text fails to decode, or the decoded
bytes are not a readable image, or they decode to an image with the given
intrinsic pixel dimensions. -/
inductive ImgBytes
  | valid (w h : Nat)
  | imgInvalid
  | b64Invalid
deriving DecidableEq

/-- `calculate_image_dimensions` from `main.py`: box-fit an image to the page
content box, preserving the intrinsic aspect ratio, starting from a preferred
width.  The `try/except` around the PIL call is modelled by the fallback
result on unreadable images; `original_width = 0` would raise
`ZeroDivisionError` inside the `try`, which the same handler turns into the
fallback. -/
def calculate_image_dimensions (img : ImgBytes) (preferred_width : ℚ) : ℚ × ℚ :=
  match img with
  | .valid original_width original_height =>
    if original_width = 0 then
      (min preferred_width MAX_WIDTH_INCHES, min 4 MAX_HEIGHT_INCHES)
    else
      let aspect : ℚ := (original_height : ℚ) / (original_width : ℚ)
      let width_inches := min preferred_width MAX_WIDTH_INCHES
      let height_inches := width_inches * aspect
      if height_inches > MAX_HEIGHT_INCHES then
        let height_inches2 := MAX_HEIGHT_INCHES
        let width_inches2 := height_inches2 / aspect
        if width_inches2 > MAX_WIDTH_INCHES then
          (MAX_WIDTH_INCHES, MAX_WIDTH_INCHES * aspect)
        else
          (width_inches2, height_inches2)
      else
        (width_inches, height_inches)
  | _ => (min preferred_width MAX_WIDTH_INCHES, min 4 MAX_HEIGHT_INCHES)

/-- `IMAGE_WIDTHS` from `main.py`: preferred widths in inches per image token. -/
def IMAGE_WIDTHS : List (List Char × ℚ) :=
  [(("IMAGE_SOURCES_USES").toList, 13 / 2),
   (("IMAGE_CAPITAL_STACK_CLOSING").toList, 13 / 2),
   (("IMAGE_LOAN_TO_COST").toList, 6),
   (("IMAGE_LTV_LTC").toList, 6),
   (("IMAGE_AERIAL_MAP").toList, 13 / 4),
   (("IMAGE_LOCATION_MAP").toList, 13 / 4),
   (("IMAGE_REGIONAL_MAP").toList, 13 / 4),
   (("IMAGE_SITE_PLAN").toList, 11 / 2),
   (("IMAGE_PILOT_SCHEDULE").toList, 6),
   (("IMAGE_TAKEOUT_SIZING").toList, 6),
   (("IMAGE_STREET_VIEW").toList, 11 / 2)]

/-- A run: the smallest unit of formatted text in a paragraph.  Besides its
text it carries the formatting attributes the engine reads or writes, and
the pictures embedded into it by `add_picture` (each recorded by its
width/height in inches). -/
structure Run where
  text : List Char
  fontName : Option (List Char) := none
  fontSize : Option Nat := none
  bold : Option Bool := none
  pics : List (ℚ × ℚ) := []
deriving DecidableEq

/-- A paragraph: an ordered list of runs plus the paragraph-level formatting
the engine writes (indentation in twips, justification, spacing). -/
structure Para where
  runs : List Run
  indLeft : Option Nat := none
  indHanging : Option Nat := none
  jc : Option (List Char) := none
  spaceAfter : Option Nat := none
  lineSpacing : Option Nat := none
deriving DecidableEq

/-- The paragraph's logical text: the concatenation of its run texts in
order (`full_text` in `main.py`). -/
def logicalText (runs : List Run) : List Char :=
  (runs.map Run.text).flatten

/-- The inner loop of the run-text indexer: for each run (numbered from `i`)
emit one `(run_index, char_index_in_run)` pair per character. -/
def ctrAux : Nat → List Run → List (Nat × Nat)
  | _, [] => []
  | i, r :: rest => ((List.range r.text.length).map fun j => (i, j)) ++ ctrAux (i + 1) rest

/-- `char_to_run` from `main.py`: maps each logical character index to the
pair `(run_index, char_index_in_run)` that produces it. -/
def char_to_run (runs : List Run) : List (Nat × Nat) := ctrAux 0 runs

/-- Total text length of the first `i` runs: the logical position at which
run `i` starts. -/
def prefLen (runs : List Run) (i : Nat) : Nat :=
  ((runs.take i).map fun r => r.text.length).sum

/-- Rewrite each run by a function of its index — the functional rendering
of `main.py`'s indexed in-place updates to `paragraph.runs`. -/
def applyIdx (f : Nat → Run → Run) : Nat → List Run → List Run
  | _, [] => []
  | k, r :: rest => f k r :: applyIdx f (k + 1) rest

/-- The value splice (`main.py` lines 535-555): given the run/offset
coordinates of a matched span and a replacement, rewrite the single
containing run as `prefix ++ replacement ++ suffix`, or, across runs, put
the prefix and replacement in the first run, the suffix in the last, and
clear every run strictly between. -/
def spliceValue (runs : List Run) (si sc ei ec : Nat) (repl : List Char) : List Run :=
  if si = ei then
    applyIdx (fun k r =>
      if k = si then { r with text := r.text.take sc ++ repl ++ r.text.drop (ec + 1) }
      else r) 0 runs
  else
    applyIdx (fun k r =>
      if k = si then { r with text := r.text.take sc ++ repl }
      else if k = ei then { r with text := r.text.drop (ec + 1) }
      else if si < k ∧ k < ei then { r with text := [] }
      else r) 0 runs

/-- The placeholder-clearing splice of the image pass (`main.py` lines
611-620): the same surgery with no replacement text. -/
def spliceClear (runs : List Run) (si sc ei ec : Nat) : List Run :=
  if si = ei then
    applyIdx (fun k r =>
      if k = si then { r with text := r.text.take sc ++ r.text.drop (ec + 1) }
      else r) 0 runs
  else
    applyIdx (fun k r =>
      if k = si then { r with text := r.text.take sc }
      else if k = ei then { r with text := r.text.drop (ec + 1) }
      else if si < k ∧ k < ei then { r with text := [] }
      else r) 0 runs

/-- A character allowed in a placeholder name: the regex class `[A-Z0-9_]`. -/
def isNameChar (c : Char) : Bool :=
  ('A' ≤ c ∧ c ≤ 'Z') ∨ ('0' ≤ c ∧ c ≤ '9') ∨ c = '_'

/-- After an opening `\x7b\x7b`, try to read `NAME\x7d\x7d` where NAME is a
nonempty maximal run of name characters; return the name and the suffix
after the closing braces. -/
def tryName (s2 : List Char) : Option (List Char × List Char) :=
  let nm := s2.takeWhile isNameChar
  match nm, s2.drop nm.length with
  | _ :: _, c3 :: c4 :: s3 => if c3 = rbrace ∧ c4 = rbrace then some (nm, s3) else none
  | _, _ => none

/-- `re.finditer` of the value-token pattern: scan left to right; at each
position try to match `\x7b\x7bNAME\x7d\x7d`; on success record
`(start, end, NAME)` and continue after the match, otherwise advance one
character.  `fuel` bounds the recursion; `tokenScan` supplies enough. -/
def scanAux : Nat → List Char → Nat → List (Nat × Nat × List Char)
  | 0, _, _ => []
  | fuel + 1, c1 :: c2 :: s2, pos =>
    if c1 = lbrace ∧ c2 = lbrace then
      match tryName s2 with
      | some (nm, s3) => (pos, pos + nm.length + 4, nm) :: scanAux fuel s3 (pos + nm.length + 4)
      | none => scanAux fuel (c2 :: s2) (pos + 1)
    else scanAux fuel (c2 :: s2) (pos + 1)
  | _ + 1, _, _ => []

/-- All value-token matches of a logical text, in left-to-right order. -/
def tokenScan (s : List Char) : List (Nat × Nat × List Char) := scanAux s.length s 0

/-- The literal `IMAGE_` name prefix of image tokens. -/
def imageLit : List Char := ("IMAGE_").toList

/-- After an opening `\x7b\x7b`, try to read `IMAGE_MORE\x7d\x7d` per the
image-token pattern: the literal `IMAGE_`, then a nonempty maximal run of
name characters, then the closing braces. -/
def tryImageName (s2 : List Char) : Option (List Char × List Char) :=
  if imageLit.isPrefixOf s2 then
    let s2' := s2.drop 6
    let more := s2'.takeWhile isNameChar
    match more, s2'.drop more.length with
    | _ :: _, c3 :: c4 :: s3 =>
      if c3 = rbrace ∧ c4 = rbrace then some (imageLit ++ more, s3) else none
    | _, _ => none
  else none

/-- `re.finditer` of the image-token pattern, same scanning discipline as
`scanAux`. -/
def scanImgAux : Nat → List Char → Nat → List (Nat × Nat × List Char)
  | 0, _, _ => []
  | fuel + 1, c1 :: c2 :: s2, pos =>
    if c1 = lbrace ∧ c2 = lbrace then
      match tryImageName s2 with
      | some (nm, s3) => (pos, pos + nm.length + 4, nm) :: scanImgAux fuel s3 (pos + nm.length + 4)
      | none => scanImgAux fuel (c2 :: s2) (pos + 1)
    else scanImgAux fuel (c2 :: s2) (pos + 1)
  | _ + 1, _, _ => []

/-- All image-token matches of a logical text, in left-to-right order. -/
def imageScan (s : List Char) : List (Nat × Nat × List Char) := scanImgAux s.length s 0

/-- Python's substring test `sub in s`. -/
def containsSub (sub : List Char) : List Char → Bool
  | [] => sub.isPrefixOf []
  | c :: rest => sub.isPrefixOf (c :: rest) || containsSub sub rest

/-- Python `s.split(sep, 1)` for a single-character separator that occurs in
`s`: the part before the first occurrence and the part after it. -/
def splitFirst (sep : Char) : List Char → (List Char × List Char)
  | [] => ([], [])
  | c :: rest =>
    if c = sep then ([], rest)
    else
      let p := splitFirst sep rest
      (c :: p.1, p.2)

/-- Python `s.split(sep, 1)` for a multi-character separator: `some (a, b)`
when `s = a ++ sep ++ b` at the first occurrence of `sep`. -/
def splitFirstSub (sep : List Char) : List Char → Option (List Char × List Char)
  | [] => if sep.isPrefixOf ([] : List Char) then some ([], []) else none
  | c :: rest =>
    if sep.isPrefixOf (c :: rest) then some ([], (c :: rest).drop sep.length)
    else
      match splitFirstSub sep rest with
      | some (a, b) => some (c :: a, b)
      | none => none

/-- The en dash (U+2013) used by the sponsor header heuristic. -/
def enDash : Char := Char.ofNat 0x2013

/-- One parsed sponsor-section line (`parse_sponsor_section` dict). -/
structure SPara where
  text : List Char
  bold : Bool
  is_blank : Bool
deriving DecidableEq

/-- The while-loop of `parse_sponsor_section`: strip each line; a blank line
becomes a blank item; otherwise decide the bold-header flag by the source's
elif chain (a `sponsorship` grade line, an en-dash line, a short
`Name - Title` line with both halves under 40 characters, or a line under 60
characters without a trailing period whose immediate successor line is
longer than 80 characters). -/
def sponsorLines : List (List Char) → List SPara
  | [] => []
  | l :: rest =>
    let line := pyStrip l
    if line = [] then
      { text := [], bold := false, is_blank := true } :: sponsorLines rest
    else
      let is_header : Bool :=
        if ("sponsorship").toList.isPrefixOf (line.map Char.toLower) then true
        else if containsSub [' ', enDash, ' '] line then true
        else if containsSub [' ', '-', ' '] line = true ∧ line.length < 80 then
          match splitFirstSub [' ', '-', ' '] line with
          | some (a, b) => decide (a.length < 40 ∧ b.length < 40)
          | none => false
        else if line.length < 60 ∧ line.getLast? ≠ some '.' then
          match rest with
          | [] => false
          | nl :: _ => decide (pyStrip nl ≠ [] ∧ (pyStrip nl).length > 80)
        else false
      { text := line, bold := is_header, is_blank := false } :: sponsorLines rest

/-- `parse_sponsor_section` from `main.py`. -/
def parse_sponsor_section (content : List Char) : List SPara :=
  if content = [] then []
  else sponsorLines ((sanitize_text_content content).splitOn '\n')

/-- The per-line sponsor classifier as a standalone pure function: one input
line together with the immediately following line (when any), producing the
emitted item.  Its body is the same elif chain the loop runs. -/
def classifySponsorLine (l : List Char) (next : Option (List Char)) : SPara :=
  let line := pyStrip l
  if line = [] then { text := [], bold := false, is_blank := true }
  else
    { text := line,
      bold :=
        if ("sponsorship").toList.isPrefixOf (line.map Char.toLower) then true
        else if containsSub [' ', enDash, ' '] line then true
        else if containsSub [' ', '-', ' '] line = true ∧ line.length < 80 then
          match splitFirstSub [' ', '-', ' '] line with
          | some (a, b) => decide (a.length < 40 ∧ b.length < 40)
          | none => false
        else if line.length < 60 ∧ line.getLast? ≠ some '.' then
          match next with
          | none => false
          | some nl => decide (pyStrip nl ≠ [] ∧ (pyStrip nl).length > 80)
        else false,
      is_blank := false }

/-- Modelled from the spec's words, for comparison with the code: a line is
a header when it is shorter than 80 characters, does not end in `.`, `!` or
`?`, contains at least one uppercase letter, and the next non-blank line is
at least 1.5 times longer or starts with a lowercase letter. -/
def specSponsorHeader (line : List Char) (nextNonBlank : Option (List Char)) : Bool :=
  decide (line.length < 80) &&
  ! (line.getLast? = some '.' ∨ line.getLast? = some '!' ∨ line.getLast? = some '?' : Bool) &&
  line.any (fun c => c.isUpper) &&
  (match nextNonBlank with
   | none => false
   | some nl => decide (2 * nl.length ≥ 3 * line.length) ||
       (nl.head?.map Char.isLower).getD false)

/-- One parsed risk-section item (`parse_risks_section` dict). -/
inductive RItem
  | risk (risk_name mitigant : List Char)
  | text (t : List Char)
  | blank
deriving DecidableEq

/-- Fuel-bounded scan for `re.split(r'\n\n+', s)`: split on every maximal
run of two or more newlines.  `acc` is the current block, reversed. -/
def sbrAux : Nat → List Char → List Char → List (List Char)
  | 0, acc, _ => [acc.reverse]
  | fuel + 1, acc, '\n' :: '\n' :: rest =>
    acc.reverse :: sbrAux fuel [] (rest.dropWhile fun c => c = '\n')
  | fuel + 1, acc, c :: rest => sbrAux fuel (c :: acc) rest
  | _ + 1, acc, [] => [acc.reverse]

/-- Split a text on blank-line runs into blocks. -/
def splitBlankRuns (s : List Char) : List (List Char) := sbrAux s.length [] s

/-- One candidate length `n` for the lazy group `[A-Z][^.]\x7b5,40\x7d?` of the
no-tab fallback pattern: the `n` characters after the first must avoid `.`,
and the remainder must match `\s\x7b2,\x7d(.+)$` — at least two leading
whitespace characters followed by at least one more character. -/
def spaceMatchTry (rest : List Char) (n : Nat) : Bool :=
  decide ((rest.take n).length = n ∧ (rest.take n).all fun c => c ≠ '.') &&
    match rest.drop n with
    | a :: b :: _ :: _ => isPySpace a && isPySpace b
    | _ => false

/-- Fuel-bounded lazy expansion of the bounded quantifier. -/
def findLazyAux (rest : List Char) : Nat → Nat → Option Nat
  | 0, _ => none
  | fuel + 1, n =>
    if n > 40 then none
    else if spaceMatchTry rest n then some n
    else findLazyAux rest fuel (n + 1)

/-- Lazy expansion of the bounded quantifier: the least `n` between 5 and 40
at which the fallback pattern matches. -/
def findLazy (rest : List Char) (n : Nat) : Option Nat := findLazyAux rest (41 - n) n

/-- The no-tab fallback `re.match(r'^([A-Z][^.]\x7b5,40\x7d?)\s\x7b2,\x7d(.+)$',
block, re.DOTALL)` of `parse_risks_section`: on success, the two capture
groups. -/
def spaceMatch (block : List Char) : Option (List Char × List Char) :=
  match block with
  | [] => none
  | c0 :: rest =>
    if 'A' ≤ c0 ∧ c0 ≤ 'Z' then
      match findLazy rest 5 with
      | none => none
      | some n =>
        let g1 := c0 :: rest.take n
        let rem := rest.drop n
        let ws := rem.takeWhile isPySpace
        let k := if ws.length = rem.length then rem.length - 1 else ws.length
        some (g1, rem.drop k)
    else none

/-- Classify one stripped, nonempty risk block: tab-separated risk/mitigant,
else the fallback pattern, else plain text. -/
def riskBlock (block : List Char) : RItem :=
  if containsSub ['\t'] block then
    let parts := splitFirst '\t' block
    RItem.risk (pyStrip parts.1) (pyStrip parts.2)
  else
    match spaceMatch block with
    | some (g1, g2) => RItem.risk (pyStrip g1) (pyStrip g2)
    | none => RItem.text block

/-- The indexed loop of `parse_risks_section`: skip empty blocks, classify
the rest, and append a blank separator after every block except the last. -/
def riskBlocksGo : List (List Char) → List RItem
  | [] => []
  | [b] => if pyStrip b = [] then [] else [riskBlock (pyStrip b)]
  | b :: rest =>
    (if pyStrip b = [] then [] else [riskBlock (pyStrip b), RItem.blank]) ++ riskBlocksGo rest

/-- `parse_risks_section` from `main.py`. -/
def parse_risks_section (content : List Char) : List RItem :=
  if content = [] then []
  else riskBlocksGo (splitBlankRuns (sanitize_text_content content))

/-- A run produced by `add_run` followed by `apply_font_formatting`:
Times New Roman, 11 pt, explicit bold flag. -/
def mkRun (t : List Char) (b : Bool) : Run :=
  { text := t, fontName := some FONT_NAME, fontSize := some FONT_SIZE_11PT, bold := some b }

/-- A fresh paragraph from `create_paragraph_after` with
`set_paragraph_spacing(space_after=0, line_spacing=240)` applied and no
runs: the blank spacer paragraph. -/
def blankSpacerPara : Para :=
  { runs := [], spaceAfter := some 0, lineSpacing := some 240 }

/-- First-content sponsor fill (`insert_sponsor_paragraphs` lines 381-387):
add a formatted run only when the item text is nonempty, then set spacing. -/
def sponsorFillFirst (p : Para) (item : SPara) : Para :=
  let p := if item.text ≠ [] then { p with runs := p.runs ++ [mkRun item.text item.bold] } else p
  { p with spaceAfter := some 0, lineSpacing := some 240 }

/-- New-paragraph sponsor fill (`insert_sponsor_paragraphs` lines 392-398)
on a fresh paragraph. -/
def sponsorFillNew (item : SPara) : Para :=
  { runs := [mkRun item.text item.bold], spaceAfter := some 0, lineSpacing := some 240 }

/-- The loop of `insert_sponsor_paragraphs`: the first non-blank item reuses
the (cleared) original paragraph, every other item becomes a new sibling
paragraph inserted after the current one. -/
def sponsorGo (fc : Bool) (cur : Para) : List SPara → List Para
  | [] => [cur]
  | item :: rest =>
    if fc ∧ item.is_blank = false then
      sponsorGo false (sponsorFillFirst cur item) rest
    else
      let np := if item.is_blank then blankSpacerPara else sponsorFillNew item
      cur :: sponsorGo fc np rest

/-- `insert_sponsor_paragraphs` from `main.py`: expand a paragraph holding a
SPONSOR_SECTION token into the parsed chain of paragraphs (the original
paragraph, cleared, is the first). -/
def insert_sponsor_paragraphs (p : Para) (content : List Char) : List Para :=
  let parsed := parse_sponsor_section content
  if parsed = [] then [p]
  else sponsorGo true { p with runs := [] } parsed

/-- Risk-paragraph fill (`insert_risks_paragraphs` lines 437-464): hanging
indent `left = hanging = 2160` twips, justified, three runs — bold risk
name, a bare literal-tab run, non-bold mitigant — and spacing. -/
def riskFill (p : Para) (risk_name mitigant : List Char) : Para :=
  { p with
    indLeft := some 2160, indHanging := some 2160, jc := some (("both").toList),
    runs := p.runs ++ [mkRun risk_name true, { text := ['\t'] }, mkRun mitigant false],
    spaceAfter := some 0, lineSpacing := some 240 }

/-- Plain-text fill of `insert_risks_paragraphs` (lines 466-477). -/
def textFill (p : Para) (t : List Char) : Para :=
  { p with runs := p.runs ++ [mkRun t false], spaceAfter := some 0, lineSpacing := some 240 }

/-- The loop of `insert_risks_paragraphs`. -/
def risksGo (fc : Bool) (cur : Para) : List RItem → List Para
  | [] => [cur]
  | RItem.blank :: rest => cur :: risksGo fc blankSpacerPara rest
  | RItem.risk n m :: rest =>
    if fc then risksGo false (riskFill cur n m) rest
    else cur :: risksGo false (riskFill { runs := [] } n m) rest
  | RItem.text t :: rest =>
    if fc then risksGo false (textFill cur t) rest
    else cur :: risksGo false (textFill { runs := [] } t) rest

/-- `insert_risks_paragraphs` from `main.py`. -/
def insert_risks_paragraphs (p : Para) (content : List Char) : List Para :=
  let parsed := parse_risks_section content
  if parsed = [] then [p]
  else risksGo true { p with runs := [] } parsed

/-- The two structured token names. -/
def sponsorKey : List Char := ("SPONSOR_SECTION").toList

def risksKey : List Char := ("RISKS_SECTION").toList

/-- The opening-braces guard substring of the value pass. -/
def lb2 : List Char := [lbrace, lbrace]

/-- The guard substring of the image pass: `\x7b\x7bIMAGE_`. -/
def imgGuard : List Char := lbrace :: lbrace :: imageLit

/-- `apply_default_font_formatting` targeted at run `i` of a paragraph (the
formatting pass at the end of `replace_placeholders_in_paragraph`): set
Times New Roman and 11 pt on that run, touching nothing else — in
particular, not the bold flag. -/
def applyDefaultFmtAt (p : Para) (i : Nat) : Para :=
  if i < p.runs.length then
    { p with runs := applyIdx (fun k r =>
        if k = i then { r with fontName := some FONT_NAME, fontSize := some FONT_SIZE_11PT }
        else r) 0 p.runs }
  else p

/-- Apply the recorded formatting fixups in order. -/
def applyFmts (p : Para) (idxs : List Nat) : Para := idxs.foldl applyDefaultFmtAt p

/-- The loop state of `replace_placeholders_in_paragraph`: the original
paragraph object (`first`, which a structured expansion clears and reuses),
the sibling paragraphs inserted after it, the current `char_to_run` map
(rebuilt only after a plain splice, exactly as in the source), the
`modified` flag, and the recorded `(run index)` formatting fixups. -/
structure VState where
  first : Para
  tail : List Para
  ctr : List (Nat × Nat)
  modified : Bool
  fmts : List Nat
deriving DecidableEq

/-- One iteration of the value-pass loop over a match `(start, end, NAME)`.
A name absent from the value map is skipped; `SPONSOR_SECTION` and
`RISKS_SECTION` dispatch to their structured expanders; any other present
name is spliced in place after sanitization.  A stale `char_to_run` lookup
or run index that falls outside the current run list is a Python
`IndexError`, modelled as `none`. -/
def valueStep (placeholders : List (List Char × List Char)) (st : VState) :
    Nat × Nat × List Char → Option VState
  | (s, e, nm) =>
    match placeholders.lookup nm with
    | none => some st
    | some v =>
      if nm = sponsorKey then
        match insert_sponsor_paragraphs st.first v with
        | [] => some { st with modified := true }
        | p :: ps => some { st with first := p, tail := ps ++ st.tail, modified := true }
      else if nm = risksKey then
        match insert_risks_paragraphs st.first v with
        | [] => some { st with modified := true }
        | p :: ps => some { st with first := p, tail := ps ++ st.tail, modified := true }
      else
        let repl := sanitize_text_content v
        if st.ctr = [] then some st
        else
          match st.ctr[s]?, st.ctr[e - 1]? with
          | some (si, sc), some (ei, ec) =>
            if si < st.first.runs.length ∧ ei < st.first.runs.length then
              let runs' := spliceValue st.first.runs si sc ei ec repl
              some { first := { st.first with runs := runs' }, tail := st.tail,
                     ctr := char_to_run runs', modified := true, fmts := st.fmts ++ [si] }
            else none
          | _, _ => none

/-- `replace_placeholders_in_paragraph` from `main.py`: find all value-token
matches in the logical text, process them last-to-first, then apply the
default formatting to every run that received a replacement.  Returns the
paragraph chain (the original paragraph first) and the `modified` flag;
`none` is an escaped `IndexError`. -/
def replace_placeholders_in_paragraph (para : Para)
    (placeholders : List (List Char × List Char)) : Option (List Para × Bool) :=
  let full_text := logicalText para.runs
  if full_text = [] ∨ containsSub lb2 full_text = false then some ([para], false)
  else
    match (tokenScan full_text).reverse.foldlM (valueStep placeholders)
        { first := para, tail := [], ctr := char_to_run para.runs,
          modified := false, fmts := [] } with
    | none => none
    | some st =>
      let first := if st.modified ∧ st.fmts ≠ [] then applyFmts st.first st.fmts else st.first
      some (first :: st.tail, st.modified)

/-- The `HTTPException` detail text raised on an image-fill failure. -/
def procErr (nm : List Char) : List Char := ("Failed to process image ").toList ++ nm

/-- An escaped Python `IndexError`. -/
def indexErr : List Char := ("IndexError").toList

/-- The loop of `replace_image_placeholders_in_paragraph` over the reversed
match list: the first match whose name is in the image map has its token
text cleared from the runs, its payload decoded, and — on success — a
picture sized by the box-fit scaler added to the first affected run, after
which the function returns immediately.  A decode failure raises, naming
the offending token. -/
def imgGo (images : List (List Char × ImgBytes)) (para : Para) (ctr : List (Nat × Nat)) :
    List (Nat × Nat × List Char) → Except (List Char) (Para × Bool)
  | [] => .ok (para, false)
  | (s, e, nm) :: rest =>
    match images.lookup nm with
    | none => imgGo images para ctr rest
    | some img =>
      if ctr = [] then imgGo images para ctr rest
      else
        match ctr[s]?, ctr[e - 1]? with
        | some (si, sc), some (ei, ec) =>
          let runs' := spliceClear para.runs si sc ei ec
          match img with
          | .b64Invalid => .error (procErr nm)
          | .imgInvalid => .error (procErr nm)
          | .valid w h =>
            let preferred := (IMAGE_WIDTHS.lookup nm).getD 6
            let dims := calculate_image_dimensions (ImgBytes.valid w h) preferred
            .ok ({ para with runs := applyIdx (fun k r =>
                    if k = si then { r with pics := r.pics ++ [dims] } else r) 0 runs' },
                 true)
        | _, _ => .error indexErr

/-- `replace_image_placeholders_in_paragraph` from `main.py`. -/
def replace_image_placeholders_in_paragraph (para : Para)
    (images : List (List Char × ImgBytes)) : Except (List Char) (Para × Bool) :=
  let full_text := logicalText para.runs
  if full_text = [] ∨ containsSub imgGuard full_text = false then .ok (para, false)
  else imgGo images para (char_to_run para.runs) (imageScan full_text).reverse

/-- One paragraph of `process_paragraphs`: the value/structured pass, then
the image pass against the surviving first paragraph. -/
def processPara (placeholders : List (List Char × List Char))
    (images : List (List Char × ImgBytes)) (p : Para) : Except (List Char) (List Para) :=
  match replace_placeholders_in_paragraph p placeholders with
  | none => .error indexErr
  | some ([], _) => .error indexErr
  | some (q :: qs, _) =>
    match replace_image_placeholders_in_paragraph q images with
    | .error e => .error e
    | .ok (q', _) => .ok (q' :: qs)

/-- `process_paragraphs` from `main.py`: each paragraph of the snapshot list
in order; an exception raised for one paragraph propagates and aborts the
rest. -/
def process_paragraphs (placeholders : List (List Char × List Char))
    (images : List (List Char × ImgBytes)) : List Para → Except (List Char) (List Para)
  | [] => .ok []
  | p :: rest =>
    match processPara placeholders images p with
    | .error e => .error e
    | .ok ps =>
      match process_paragraphs placeholders images rest with
      | .error e => .error e
      | .ok rest' => .ok (ps ++ rest')

/-- A table: rows of cells, each cell a list of paragraphs. -/
abbrev TableT : Type := List (List (List Para))

/-- `replace_placeholders_in_table` from `main.py`. -/
def replace_placeholders_in_table (placeholders : List (List Char × List Char))
    (images : List (List Char × ImgBytes)) (tbl : TableT) : Except (List Char) TableT :=
  (tbl : List (List (List Para))).mapM fun row =>
    row.mapM fun cell => process_paragraphs placeholders images cell

/-- A header or footer variant: its paragraphs and its tables. -/
structure HFPart where
  paras : List Para
  tbls : List TableT
deriving DecidableEq

/-- The document tree walked by `fill_template`: body paragraphs, body
tables, and the header/footer variants of the sections. -/
structure Doc where
  body : List Para
  tbls : List TableT
  headers : List HFPart
  footers : List HFPart
deriving DecidableEq

/-- Process one header or footer variant (paragraphs, then its tables). -/
def processHF (placeholders : List (List Char × List Char))
    (images : List (List Char × ImgBytes)) (h : HFPart) : Except (List Char) HFPart := do
  let ps ← process_paragraphs placeholders images h.paras
  let ts ← h.tbls.mapM (replace_placeholders_in_table placeholders images)
  return { paras := ps, tbls := ts }

/-- `fill_template` from `main.py`, restricted to the in-memory document
tree: body paragraphs, then tables, then every header and footer variant. -/
def fill_template (doc : Doc) (placeholders : List (List Char × List Char))
    (images : List (List Char × ImgBytes)) : Except (List Char) Doc := do
  let body ← process_paragraphs placeholders images doc.body
  let tbls ← doc.tbls.mapM (replace_placeholders_in_table placeholders images)
  let headers ← doc.headers.mapM (processHF placeholders images)
  let footers ← doc.footers.mapM (processHF placeholders images)
  return { body := body, tbls := tbls, headers := headers, footers := footers }

end TemplateFiller

namespace TemplateFiller

/-! ## Infrastructure: indexed rewriting, the run-text indexer, splices -/

theorem applyIdx_length (f : Nat → Run → Run) (k : Nat) (l : List Run) :
    (applyIdx f k l).length = l.length := by
  induction l generalizing k with
  | nil => rfl
  | cons r rest ih => simp [applyIdx, ih]

theorem applyIdx_getElem? (f : Nat → Run → Run) (k n : Nat) (l : List Run) :
    (applyIdx f k l)[n]? = (l[n]?).map (f (k + n)) := by
  induction l generalizing k n with
  | nil => simp [applyIdx]
  | cons r rest ih =>
    cases n with
    | zero => simp [applyIdx]
    | succ m =>
      simp only [applyIdx, List.getElem?_cons_succ, ih (k + 1) m]
      have : k + 1 + m = k + (m + 1) := by omega
      rw [this]

theorem applyIdx_congr {f g : Nat → Run → Run} (h : ∀ i r, f i r = g i r)
    (k : Nat) (l : List Run) : applyIdx f k l = applyIdx g k l := by
  induction l generalizing k with
  | nil => rfl
  | cons r rest ih => simp [applyIdx, h, ih]

theorem applyIdx_shift (f : Nat → Run → Run) (k : Nat) (l : List Run) :
    applyIdx f (k + 1) l = applyIdx (fun i => f (i + 1)) k l := by
  induction l generalizing k with
  | nil => rfl
  | cons r rest ih => simp [applyIdx, ih]

theorem applyIdx_id (k : Nat) (l : List Run) : applyIdx (fun _ r => r) k l = l := by
  induction l generalizing k with
  | nil => rfl
  | cons r rest ih => simp [applyIdx, ih]

/-- Rewriting just the run at index `si` is list surgery at `si`. -/
theorem applyIdx_set_form (g : Run → Run) (si : Nat) (l : List Run) (r : Run)
    (hr : l[si]? = some r) :
    applyIdx (fun k x => if k = si then g x else x) 0 l =
      l.take si ++ [g r] ++ l.drop (si + 1) := by
  induction l generalizing si with
  | nil => simp at hr
  | cons x rest ih =>
    cases si with
    | zero =>
      simp only [List.getElem?_cons_zero, Option.some.injEq] at hr
      subst hr
      simp only [applyIdx, if_pos rfl, applyIdx_shift]
      rw [applyIdx_congr (g := fun _ r => r) (by intro i r; simp), applyIdx_id]
      simp
    | succ si' =>
      simp only [List.getElem?_cons_succ] at hr
      simp only [applyIdx, applyIdx_shift]
      rw [applyIdx_congr (g := fun k x => if k = si' then g x else x) (by intro i r; simp), ih si' hr]
      simp

/-- Clearing every run below `e` and rewriting run `e` is list surgery. -/
theorem applyIdx_clear_upto (g2 : Run → Run) (e : Nat) (l : List Run) (r2 : Run)
    (h2 : l[e]? = some r2) :
    applyIdx (fun k x => if k = e then g2 x
              else if k < e then { x with text := [] } else x) 0 l =
      (l.take e).map (fun x => { x with text := [] }) ++ [g2 r2] ++ l.drop (e + 1) := by
  induction l generalizing e with
  | nil => simp at h2
  | cons x rest ih =>
    cases e with
    | zero =>
      simp only [List.getElem?_cons_zero, Option.some.injEq] at h2
      subst h2
      simp only [applyIdx, if_pos rfl, applyIdx_shift]
      rw [applyIdx_congr (g := fun _ r => r) (by intro i r; simp), applyIdx_id]
      simp
    | succ e' =>
      simp only [List.getElem?_cons_succ] at h2
      simp only [applyIdx, applyIdx_shift]
      rw [applyIdx_congr (g := fun k x => if k = e' then g2 x
            else if k < e' then { x with text := [] } else x)
          (by intro i r; simp only [Nat.add_left_inj, Nat.add_lt_add_iff_right]),
        ih e' h2]
      simp

/-- The multi-run rewrite is list surgery: prefix runs, the rewritten first
run, the cleared middle slice, the rewritten last run, the suffix runs. -/
theorem applyIdx_multi_form (g1 g2 : Run → Run) (si ei : Nat) (l : List Run) (r1 r2 : Run)
    (hlt : si < ei) (h1 : l[si]? = some r1) (h2 : l[ei]? = some r2) :
    applyIdx (fun k x => if k = si then g1 x else if k = ei then g2 x
              else if si < k ∧ k < ei then { x with text := [] } else x) 0 l =
      l.take si ++ [g1 r1]
        ++ ((l.drop (si + 1)).take (ei - si - 1)).map (fun x => { x with text := [] })
        ++ [g2 r2] ++ l.drop (ei + 1) := by
  induction l generalizing si ei with
  | nil => simp at h1
  | cons x rest ih =>
    cases si with
    | zero =>
      simp only [List.getElem?_cons_zero, Option.some.injEq] at h1
      subst h1
      obtain ⟨e', rfl⟩ : ∃ e', ei = e' + 1 := ⟨ei - 1, by omega⟩
      simp only [List.getElem?_cons_succ] at h2
      simp only [applyIdx, if_pos rfl, applyIdx_shift]
      rw [applyIdx_congr (g := fun k x => if k = e' then g2 x
            else if k < e' then { x with text := [] } else x)
          (by intro i r
              by_cases hie : i = e'
              · subst hie; simp
              · by_cases hlt2 : i < e'
                · have h01 : 0 < i + 1 := by omega
                  have hs1 : i + 1 < e' + 1 := by omega
                  simp [hie, hlt2, h01, hs1]
                · have hs1 : ¬ (i + 1 < e' + 1) := by omega
                  simp [hie, hlt2, hs1]),
        applyIdx_clear_upto g2 e' rest r2 h2]
      simp
    | succ si' =>
      simp only [List.getElem?_cons_succ] at h1
      obtain ⟨e', rfl⟩ : ∃ e', ei = e' + 1 := ⟨ei - 1, by omega⟩
      simp only [List.getElem?_cons_succ] at h2
      have hlt' : si' < e' := by omega
      simp only [applyIdx, applyIdx_shift]
      have hh : ¬ ((0 : Nat) = si' + 1) := by omega
      have hh2 : ¬ ((0 : Nat) = e' + 1) := by omega
      have hh3 : ¬ (si' + 1 < 0 ∧ 0 < e' + 1) := by omega
      rw [applyIdx_congr (g := fun k x => if k = si' then g1 x else if k = e' then g2 x
            else if si' < k ∧ k < e' then { x with text := [] } else x)
          (by intro i r
              by_cases h1' : i = si'
              · subst h1'; simp
              · by_cases h2' : i = e'
                · subst h2'; simp [h1']
                · have e1 : ¬ (i + 1 = si' + 1) := by omega
                  have e2 : ¬ (i + 1 = e' + 1) := by omega
                  have e3 : (si' + 1 < i + 1 ∧ i + 1 < e' + 1) ↔ (si' < i ∧ i < e') := by omega
                  simp only [e1, if_false, e2, h1', h2']
                  rw [if_congr e3 rfl rfl]),
        ih si' e' hlt' h1 h2]
      simp only [if_neg hh, if_neg hh2, if_neg hh3]
      have harith : e' + 1 - (si' + 1) - 1 = e' - si' - 1 := by omega
      simp [harith]

theorem logicalText_nil : logicalText [] = [] := rfl

theorem logicalText_cons (r : Run) (rest : List Run) :
    logicalText (r :: rest) = r.text ++ logicalText rest := by
  simp [logicalText]

theorem logicalText_append (a b : List Run) :
    logicalText (a ++ b) = logicalText a ++ logicalText b := by
  simp [logicalText]

theorem prefLen_zero (runs : List Run) : prefLen runs 0 = 0 := by
  simp [prefLen]

theorem prefLen_cons_succ (r : Run) (rest : List Run) (i : Nat) :
    prefLen (r :: rest) (i + 1) = r.text.length + prefLen rest i := by
  simp [prefLen]

theorem ctrAux_length (b : Nat) (l : List Run) :
    (ctrAux b l).length = (logicalText l).length := by
  induction l generalizing b with
  | nil => rfl
  | cons r rest ih => simp [ctrAux, logicalText_cons, ih]

theorem char_to_run_length (runs : List Run) :
    (char_to_run runs).length = (logicalText runs).length :=
  ctrAux_length 0 runs

/-- The indexer characterization: entry `p` of `ctrAux b l` is `(b + i, c)`
where run `i` (locally numbered) holds character `c` of its text, and `p` is
the corresponding logical position. -/
theorem ctrAux_getElem? (b p j c : Nat) (l : List Run)
    (h : (ctrAux b l)[p]? = some (j, c)) :
    ∃ i r, j = b + i ∧ l[i]? = some r ∧ c < r.text.length ∧ p = prefLen l i + c := by
  induction l generalizing b p with
  | nil => simp [ctrAux] at h
  | cons r rest ih =>
    simp only [ctrAux] at h
    rcases Nat.lt_or_ge p r.text.length with hp | hp
    · rw [List.getElem?_append, List.length_map, List.length_range, if_pos hp,
        List.getElem?_map, List.getElem?_range hp] at h
      simp only [Option.map_some', Option.some.injEq, Prod.mk.injEq] at h
      exact ⟨0, r, by omega, by simp, by omega, by simp [prefLen_zero]; omega⟩
    · rw [List.getElem?_append_right (by simpa using hp)] at h
      simp only [List.length_map, List.length_range] at h
      obtain ⟨i, r', hj, hget, hc, hp'⟩ := ih (b + 1) (p - r.text.length) h
      exact ⟨i + 1, r', by omega, by simpa using hget, hc,
        by rw [prefLen_cons_succ]; omega⟩

theorem char_to_run_getElem? (runs : List Run) (p j c : Nat)
    (h : (char_to_run runs)[p]? = some (j, c)) :
    ∃ r, runs[j]? = some r ∧ c < r.text.length ∧ p = prefLen runs j + c := by
  obtain ⟨i, r, hj, hget, hc, hp⟩ := ctrAux_getElem? 0 p j c runs h
  subst hj
  exact ⟨r, by simpa using hget, hc, by simpa using hp⟩

/-- Taking the logical text up to a position inside run `i` yields the texts
of the earlier runs plus the prefix of run `i`. -/
theorem logicalText_take (runs : List Run) (i c : Nat) (r : Run)
    (hr : runs[i]? = some r) (hc : c ≤ r.text.length) :
    (logicalText runs).take (prefLen runs i + c) =
      logicalText (runs.take i) ++ r.text.take c := by
  induction runs generalizing i with
  | nil => simp at hr
  | cons x rest ih =>
    cases i with
    | zero =>
      simp only [List.getElem?_cons_zero, Option.some.injEq] at hr
      subst hr
      rw [prefLen_zero, logicalText_cons]
      simp [List.take_append_of_le_length hc, logicalText]
    | succ i' =>
      simp only [List.getElem?_cons_succ] at hr
      rw [prefLen_cons_succ, logicalText_cons, Nat.add_assoc, List.take_append]
      simp [logicalText_cons, ih i' hr]

/-- Dropping the logical text past a position inside (or just past) run `i`
yields the suffix of run `i` plus the texts of the later runs. -/
theorem logicalText_drop (runs : List Run) (i c : Nat) (r : Run)
    (hr : runs[i]? = some r) (hc : c ≤ r.text.length) :
    (logicalText runs).drop (prefLen runs i + c) =
      r.text.drop c ++ logicalText (runs.drop (i + 1)) := by
  induction runs generalizing i with
  | nil => simp at hr
  | cons x rest ih =>
    cases i with
    | zero =>
      simp only [List.getElem?_cons_zero, Option.some.injEq] at hr
      subst hr
      rw [prefLen_zero, logicalText_cons]
      rw [List.drop_append_eq_append_drop]
      simp [Nat.sub_eq_zero_of_le hc]
    | succ i' =>
      simp only [List.getElem?_cons_succ] at hr
      rw [prefLen_cons_succ, logicalText_cons, Nat.add_assoc, List.drop_append]
      simpa using ih i' hr

/-- Run indices returned by the indexer are monotone in the logical
position. -/
theorem char_to_run_mono (runs : List Run) (p q jp cp jq cq : Nat)
    (hp : (char_to_run runs)[p]? = some (jp, cp))
    (hq : (char_to_run runs)[q]? = some (jq, cq))
    (hpq : p ≤ q) : jp ≤ jq := by
  obtain ⟨rp, hrp, hcp, hp'⟩ := char_to_run_getElem? runs p jp cp hp
  obtain ⟨rq, hrq, hcq, hq'⟩ := char_to_run_getElem? runs q jq cq hq
  by_contra hlt
  push_neg at hlt
  have hjp : jq + 1 ≤ jp := hlt
  have hstep : prefLen runs (jq + 1) = prefLen runs jq + rq.text.length := by
    have hq_lt : jq < runs.length := (List.getElem?_eq_some.mp hrq).1
    have : runs.take (jq + 1) = runs.take jq ++ [runs[jq]] := by
      rw [List.take_succ]
      simp [List.getElem?_eq_getElem hq_lt]
    rw [prefLen, this]
    have : runs[jq] = rq := by
      have := List.getElem?_eq_getElem hq_lt
      rw [this] at hrq
      exact (Option.some.injEq _ _).mp hrq
    simp [prefLen, this]
  have hmono : prefLen runs (jq + 1) ≤ prefLen runs jp := by
    rw [prefLen, prefLen]
    have hsub : runs.take (jq + 1) = (runs.take jp).take (jq + 1) := by
      rw [List.take_take, min_eq_left hjp]
    rw [hsub]
    exact List.Sublist.sum_le_sum
      (by
        refine List.Sublist.map _ (List.take_sublist _ _))
      (by intro x hx; positivity)
  omega

theorem logicalText_map_clear (l : List Run) :
    logicalText (l.map fun x => { x with text := ([] : List Char) }) = [] := by
  induction l with
  | nil => rfl
  | cons x rest ih => simpa [logicalText_cons] using ih

/-! ## Claims about the splice engine -/

/-- **C2.** For every paragraph with a resolvable value-token span lying
entirely inside run `i` (its two endpoints both map to run `i` under the
indexer), the splice rewrites only run `i`'s text as
`prefix ++ replacement ++ suffix`, leaves every other run identical, and
preserves the number of runs. -/
theorem single_run_splice_frame (runs : List Run) (s e si sc ec : Nat) (repl : List Char)
    (hs : (char_to_run runs)[s]? = some (si, sc))
    (he : (char_to_run runs)[e - 1]? = some (si, ec)) :
    (spliceValue runs si sc si ec repl).length = runs.length ∧
    (∀ k, k ≠ si → (spliceValue runs si sc si ec repl)[k]? = runs[k]?) ∧
    (∃ r, runs[si]? = some r ∧
      (spliceValue runs si sc si ec repl)[si]? =
        some { r with text := r.text.take sc ++ repl ++ r.text.drop (ec + 1) }) := by
  obtain ⟨r, hr, hcr, hpos⟩ := char_to_run_getElem? runs s si sc hs
  have hdef : spliceValue runs si sc si ec repl = applyIdx (fun k x =>
      if k = si then { x with text := x.text.take sc ++ repl ++ x.text.drop (ec + 1) }
      else x) 0 runs := by
    simp [spliceValue]
  refine ⟨by rw [hdef]; exact applyIdx_length _ _ _, ?_, r, hr, ?_⟩
  · intro k hk
    rw [hdef, applyIdx_getElem?]
    cases hx : runs[k]? <;> simp [hk]
  · rw [hdef, applyIdx_getElem?, hr]
    simp

/-- Witness for C2: a three-run paragraph `["ab", "c\x7b\x7bX\x7d\x7dd", "e"]`
whose token span lies inside run 1. -/
theorem single_run_splice_frame_witness :
    (spliceValue [{ text := ("ab").toList },
        { text := ("c" ++ "\x7b\x7bX\x7d\x7d" ++ "d").toList }, { text := ("e").toList }]
        1 1 1 5 (("VAL").toList)).length =
      ([{ text := ("ab").toList },
        { text := ("c" ++ "\x7b\x7bX\x7d\x7d" ++ "d").toList },
        { text := ("e").toList }] : List Run).length ∧
    (∀ k, k ≠ 1 →
      (spliceValue [{ text := ("ab").toList },
        { text := ("c" ++ "\x7b\x7bX\x7d\x7d" ++ "d").toList }, { text := ("e").toList }]
        1 1 1 5 (("VAL").toList))[k]? =
      ([{ text := ("ab").toList },
        { text := ("c" ++ "\x7b\x7bX\x7d\x7d" ++ "d").toList },
        { text := ("e").toList }] : List Run)[k]?) ∧
    (∃ r, ([{ text := ("ab").toList },
        { text := ("c" ++ "\x7b\x7bX\x7d\x7d" ++ "d").toList },
        { text := ("e").toList }] : List Run)[1]? = some r ∧
      (spliceValue [{ text := ("ab").toList },
        { text := ("c" ++ "\x7b\x7bX\x7d\x7d" ++ "d").toList }, { text := ("e").toList }]
        1 1 1 5 (("VAL").toList))[1]? =
        some { r with text := r.text.take 1 ++ ("VAL").toList ++ r.text.drop 6 }) :=
  single_run_splice_frame _ 3 8 1 1 5 _ (by decide) (by decide)

/-- **C1.** For every paragraph with a resolvable value-token span starting
in run `i` and ending in a later run `j`, the splice keeps the number of
runs, leaves runs outside `[i, j]` identical, clears every run strictly
between to the empty text without deleting it, leaves run `i` holding its
prefix plus the full replacement and run `j` its suffix, and the resulting
logical text is the original with the token substring replaced — wherever
the run boundaries fall. -/
theorem multi_run_splice_correct (runs : List Run) (s e si sc ei ec : Nat) (repl : List Char)
    (hs : (char_to_run runs)[s]? = some (si, sc))
    (he : (char_to_run runs)[e - 1]? = some (ei, ec))
    (hse : s < e) (hij : si < ei) :
    (spliceValue runs si sc ei ec repl).length = runs.length ∧
    (∀ k, k < si ∨ ei < k → (spliceValue runs si sc ei ec repl)[k]? = runs[k]?) ∧
    (∀ k, si < k → k < ei → ∃ r, runs[k]? = some r ∧
        (spliceValue runs si sc ei ec repl)[k]? = some { r with text := ([] : List Char) }) ∧
    (∃ r1, runs[si]? = some r1 ∧
        (spliceValue runs si sc ei ec repl)[si]? =
          some { r1 with text := r1.text.take sc ++ repl }) ∧
    (∃ r2, runs[ei]? = some r2 ∧
        (spliceValue runs si sc ei ec repl)[ei]? =
          some { r2 with text := r2.text.drop (ec + 1) }) ∧
    logicalText (spliceValue runs si sc ei ec repl) =
      (logicalText runs).take s ++ repl ++ (logicalText runs).drop e := by
  obtain ⟨r1, hr1, hc1, hp1⟩ := char_to_run_getElem? runs s si sc hs
  obtain ⟨r2, hr2, hc2, hp2⟩ := char_to_run_getElem? runs (e - 1) ei ec he
  have hne : ¬ (si = ei) := Nat.ne_of_lt hij
  have hdef : spliceValue runs si sc ei ec repl = applyIdx (fun k x =>
      if k = si then { x with text := x.text.take sc ++ repl }
      else if k = ei then { x with text := x.text.drop (ec + 1) }
      else if si < k ∧ k < ei then { x with text := [] }
      else x) 0 runs := by
    simp [spliceValue, hne]
  refine ⟨by rw [hdef]; exact applyIdx_length _ _ _, ?_, ?_, ⟨r1, hr1, ?_⟩, ⟨r2, hr2, ?_⟩, ?_⟩
  · intro k hk
    have h1 : ¬ (k = si) := by omega
    have h2 : ¬ (k = ei) := by omega
    have h3 : ¬ (si < k ∧ k < ei) := by omega
    rw [hdef, applyIdx_getElem?]
    cases hx : runs[k]? <;> simp [h1, h2, h3]
  · intro k hk1 hk2
    have hklen : k < runs.length := by
      have := (List.getElem?_eq_some.mp hr2).1
      omega
    refine ⟨runs[k], List.getElem?_eq_getElem hklen, ?_⟩
    have h1 : ¬ (k = si) := by omega
    have h2 : ¬ (k = ei) := by omega
    rw [hdef, applyIdx_getElem?, List.getElem?_eq_getElem hklen]
    simp [h1, h2, hk1, hk2]
  · rw [hdef, applyIdx_getElem?, hr1]
    simp
  · rw [hdef, applyIdx_getElem?, hr2]
    simp [hne, Ne.symm hne]
  · rw [hdef,
      applyIdx_multi_form (fun x => { x with text := x.text.take sc ++ repl })
        (fun x => { x with text := x.text.drop (ec + 1) }) si ei runs r1 r2 hij hr1 hr2]
    have htake := logicalText_take runs si sc r1 hr1 (le_of_lt hc1)
    have hdrop := logicalText_drop runs ei (ec + 1) r2 hr2 (by omega)
    have he1 : e = prefLen runs ei + (ec + 1) := by omega
    rw [he1, hdrop, hp1, htake]
    simp only [logicalText_append, logicalText_cons, logicalText_nil, logicalText_map_clear]
    simp [List.append_assoc]

/-- Witness for C1: the token `\x7b\x7bXYZ\x7d\x7d` split across three runs
`["a\x7b\x7bX", "Y", "Z\x7d\x7db"]`. -/
theorem multi_run_splice_correct_witness :
    (spliceValue [{ text := ("a\x7b\x7bX").toList }, { text := ("Y").toList },
        { text := ("Z\x7d\x7db").toList }] 0 1 2 2 (("V1").toList)).length =
      ([{ text := ("a\x7b\x7bX").toList }, { text := ("Y").toList },
        { text := ("Z\x7d\x7db").toList }] : List Run).length ∧
    (∀ k, k < 0 ∨ 2 < k →
      (spliceValue [{ text := ("a\x7b\x7bX").toList }, { text := ("Y").toList },
        { text := ("Z\x7d\x7db").toList }] 0 1 2 2 (("V1").toList))[k]? =
      ([{ text := ("a\x7b\x7bX").toList }, { text := ("Y").toList },
        { text := ("Z\x7d\x7db").toList }] : List Run)[k]?) ∧
    (∀ k, 0 < k → k < 2 → ∃ r,
      ([{ text := ("a\x7b\x7bX").toList }, { text := ("Y").toList },
        { text := ("Z\x7d\x7db").toList }] : List Run)[k]? = some r ∧
      (spliceValue [{ text := ("a\x7b\x7bX").toList }, { text := ("Y").toList },
        { text := ("Z\x7d\x7db").toList }] 0 1 2 2 (("V1").toList))[k]? =
        some { r with text := ([] : List Char) }) ∧
    (∃ r1, ([{ text := ("a\x7b\x7bX").toList }, { text := ("Y").toList },
        { text := ("Z\x7d\x7db").toList }] : List Run)[0]? = some r1 ∧
      (spliceValue [{ text := ("a\x7b\x7bX").toList }, { text := ("Y").toList },
        { text := ("Z\x7d\x7db").toList }] 0 1 2 2 (("V1").toList))[0]? =
        some { r1 with text := r1.text.take 1 ++ ("V1").toList }) ∧
    (∃ r2, ([{ text := ("a\x7b\x7bX").toList }, { text := ("Y").toList },
        { text := ("Z\x7d\x7db").toList }] : List Run)[2]? = some r2 ∧
      (spliceValue [{ text := ("a\x7b\x7bX").toList }, { text := ("Y").toList },
        { text := ("Z\x7d\x7db").toList }] 0 1 2 2 (("V1").toList))[2]? =
        some { r2 with text := r2.text.drop 3 }) ∧
    logicalText (spliceValue [{ text := ("a\x7b\x7bX").toList }, { text := ("Y").toList },
        { text := ("Z\x7d\x7db").toList }] 0 1 2 2 (("V1").toList)) =
      (logicalText [{ text := ("a\x7b\x7bX").toList }, { text := ("Y").toList },
        { text := ("Z\x7d\x7db").toList }]).take 1 ++ ("V1").toList ++
      (logicalText [{ text := ("a\x7b\x7bX").toList }, { text := ("Y").toList },
        { text := ("Z\x7d\x7db").toList }]).drop 8 :=
  multi_run_splice_correct _ 1 8 0 1 2 2 _ (by decide) (by decide) (by decide) (by decide)

/-! ## Claims about unresolved tokens and empty maps -/

theorem valueStep_empty (st : VState) (m : Nat × Nat × List Char) :
    valueStep [] st m = some st := by
  obtain ⟨s, e, nm⟩ := m
  rfl

theorem foldlM_valueStep_empty (ms : List (Nat × Nat × List Char)) (st : VState) :
    ms.foldlM (valueStep []) st = some st := by
  induction ms generalizing st with
  | nil => rfl
  | cons m rest ih => simp [List.foldlM_cons, valueStep_empty, ih]

theorem replace_placeholders_empty (para : Para) :
    replace_placeholders_in_paragraph para [] = some ([para], false) := by
  unfold replace_placeholders_in_paragraph
  dsimp only
  split
  · rfl
  · rw [foldlM_valueStep_empty]
    simp

theorem imgGo_empty (para : Para) (ctr : List (Nat × Nat))
    (ms : List (Nat × Nat × List Char)) : imgGo [] para ctr ms = .ok (para, false) := by
  induction ms with
  | nil => rfl
  | cons m rest ih =>
    obtain ⟨s, e, nm⟩ := m
    simpa [imgGo] using ih

theorem replace_image_empty (para : Para) :
    replace_image_placeholders_in_paragraph para [] = .ok (para, false) := by
  simp [replace_image_placeholders_in_paragraph, imgGo_empty]

theorem processPara_empty (p : Para) : processPara [] [] p = .ok [p] := by
  simp [processPara, replace_placeholders_empty, replace_image_empty]

theorem process_paragraphs_empty (paras : List Para) :
    process_paragraphs [] [] paras = .ok paras := by
  induction paras with
  | nil => rfl
  | cons p rest ih => simp [process_paragraphs, processPara_empty, ih]

theorem mapM_ok_id {α : Type} (f : α → Except (List Char) α) (l : List α)
    (h : ∀ a ∈ l, f a = .ok a) : l.mapM f = .ok l := by
  induction l with
  | nil => rfl
  | cons a rest ih =>
    rw [List.mapM_cons, h a (by simp), ih fun b hb => h b (by simp [hb])]
    rfl

theorem replace_table_empty (tbl : TableT) :
    replace_placeholders_in_table [] [] tbl = .ok tbl := by
  refine mapM_ok_id _ _ fun row _ => ?_
  exact mapM_ok_id _ _ fun cell _ => process_paragraphs_empty cell

theorem processHF_empty (h : HFPart) : processHF [] [] h = .ok h := by
  unfold processHF
  rw [process_paragraphs_empty, mapM_ok_id _ _ fun t _ => replace_table_empty t]
  rfl

/-- **C3.** Filling any document with an empty value map and an empty image
map returns the document unchanged — every paragraph (body, table cell,
header, footer) keeps its logical text verbatim, every placeholder is
preserved, and no error is raised. -/
theorem fill_template_empty_maps (doc : Doc) : fill_template doc [] [] = .ok doc := by
  unfold fill_template
  rw [process_paragraphs_empty, mapM_ok_id _ _ fun t _ => replace_table_empty t,
    mapM_ok_id _ _ fun h _ => processHF_empty h,
    mapM_ok_id _ _ fun h _ => processHF_empty h]
  rfl

/-! ## The value pass on a paragraph with exactly one match -/

/-- Evaluate `replace_placeholders_in_paragraph` when the scanner finds
exactly one match, the name is a plain value-map entry, and the indexer
resolves the span: the result is the splice followed by the default
formatting fixup on the span's first run. -/
theorem single_match_value_pass (para : Para) (placeholders : List (List Char × List Char))
    (s e si sc ei ec : Nat) (nm v : List Char)
    (hscan : tokenScan (logicalText para.runs) = [(s, e, nm)])
    (hg : containsSub lb2 (logicalText para.runs) = true)
    (hlk : placeholders.lookup nm = some v)
    (hns : ¬ (nm = sponsorKey)) (hnr : ¬ (nm = risksKey))
    (hs : (char_to_run para.runs)[s]? = some (si, sc))
    (he : (char_to_run para.runs)[e - 1]? = some (ei, ec))
    (hsi : si < para.runs.length) (hei : ei < para.runs.length) :
    replace_placeholders_in_paragraph para placeholders =
      some ([applyDefaultFmtAt
        { para with runs := spliceValue para.runs si sc ei ec (sanitize_text_content v) } si],
        true) := by
  have hft : logicalText para.runs ≠ [] := by
    intro h
    rw [h] at hscan
    simp [tokenScan, scanAux] at hscan
  have hctrne : char_to_run para.runs ≠ [] := by
    intro h
    rw [h] at hs
    simp at hs
  have hstep : valueStep placeholders
      { first := para, tail := [], ctr := char_to_run para.runs, modified := false, fmts := [] }
      (s, e, nm) = some
      { first := { para with runs := spliceValue para.runs si sc ei ec (sanitize_text_content v) },
        tail := [],
        ctr := char_to_run (spliceValue para.runs si sc ei ec (sanitize_text_content v)),
        modified := true, fmts := [si] } := by
    unfold valueStep
    dsimp only
    rw [hlk]
    dsimp only
    rw [if_neg hns, if_neg hnr, if_neg hctrne, hs, he]
    dsimp only
    rw [if_pos ⟨hsi, hei⟩]
    simp
  unfold replace_placeholders_in_paragraph
  dsimp only
  rw [if_neg (by simp [hft, hg]), hscan, List.reverse_singleton, List.foldlM_cons, hstep]
  rfl

theorem spliceValue_fields (runs : List Run) (si sc ei ec : Nat) (repl : List Char) (k : Nat) :
    ((spliceValue runs si sc ei ec repl)[k]?).map Run.fontName = (runs[k]?).map Run.fontName ∧
    ((spliceValue runs si sc ei ec repl)[k]?).map Run.fontSize = (runs[k]?).map Run.fontSize ∧
    ((spliceValue runs si sc ei ec repl)[k]?).map Run.bold = (runs[k]?).map Run.bold := by
  unfold spliceValue
  split <;> rw [applyIdx_getElem?] <;> cases hx : runs[k]? <;>
    simp <;> split_ifs <;> simp

theorem applyDefaultFmtAt_runs_length (p : Para) (i : Nat) :
    (applyDefaultFmtAt p i).runs.length = p.runs.length := by
  unfold applyDefaultFmtAt
  split
  · exact applyIdx_length _ _ _
  · rfl

theorem applyDefaultFmtAt_getElem?_ne (p : Para) (i k : Nat) (h : ¬ (k = i)) :
    (applyDefaultFmtAt p i).runs[k]? = p.runs[k]? := by
  unfold applyDefaultFmtAt
  split
  · dsimp only
    rw [applyIdx_getElem?]
    cases hx : p.runs[k]? <;> simp [h]
  · rfl

theorem applyDefaultFmtAt_getElem?_eq (p : Para) (i : Nat) (r : Run)
    (hi : i < p.runs.length) (hr : p.runs[i]? = some r) :
    (applyDefaultFmtAt p i).runs[i]? =
      some { r with fontName := some FONT_NAME, fontSize := some FONT_SIZE_11PT } := by
  unfold applyDefaultFmtAt
  rw [if_pos hi]
  dsimp only
  rw [applyIdx_getElem?, hr]
  simp

theorem spliceValue_length (runs : List Run) (si sc ei ec : Nat) (repl : List Char) :
    (spliceValue runs si sc ei ec repl).length = runs.length := by
  unfold spliceValue
  split <;> exact applyIdx_length _ _ _

/-- Counterexample to **C7** as stated: a single bold run holding
`\x7b\x7bX\x7d\x7d` keeps `bold = some true` after the splice (the
formatting pass sets only font name and size, never bold), and in a
two-run splice the second touched run keeps its original font entirely. -/
theorem splice_formatting_counterexample :
    (replace_placeholders_in_paragraph
      { runs := [{ text := ("\x7b\x7bX\x7d\x7d").toList, fontName := some (("Arial").toList),
                   fontSize := some 9, bold := some true }] }
      [(("X").toList, ("v").toList)] =
    some ([{ runs := [{ text := ("v").toList, fontName := some FONT_NAME,
                        fontSize := some FONT_SIZE_11PT, bold := some true, pics := [] }] }],
      true)) ∧
    (replace_placeholders_in_paragraph
      { runs := [{ text := ("\x7b\x7bX").toList, bold := some true },
                 { text := ("\x7d\x7d end").toList, fontName := some (("Arial").toList),
                   bold := some true }] }
      [(("X").toList, ("v").toList)] =
    some ([{ runs := [{ text := ("v").toList, fontName := some FONT_NAME,
                        fontSize := some FONT_SIZE_11PT, bold := some true, pics := [] },
                      { text := (" end").toList, fontName := some (("Arial").toList),
                        fontSize := none, bold := some true, pics := [] }] }],
      true)) :=
  ⟨rfl, rfl⟩

/-- **C7 (amended).** After a plain value-token splice, only the run that
received the replacement (the span's first run) is normalized to the
canonical body font (Times New Roman) and size (11 pt); its bold flag is
left exactly as it was, and every other run — including the other runs
touched by a multi-run splice — keeps its font, size, and bold flag
unchanged. -/
theorem splice_formatting_normalization (para : Para)
    (placeholders : List (List Char × List Char))
    (s e si sc ei ec : Nat) (nm v : List Char)
    (hscan : tokenScan (logicalText para.runs) = [(s, e, nm)])
    (hg : containsSub lb2 (logicalText para.runs) = true)
    (hlk : placeholders.lookup nm = some v)
    (hns : ¬ (nm = sponsorKey)) (hnr : ¬ (nm = risksKey))
    (hs : (char_to_run para.runs)[s]? = some (si, sc))
    (he : (char_to_run para.runs)[e - 1]? = some (ei, ec))
    (hsi : si < para.runs.length) (hei : ei < para.runs.length) :
    ∃ q, replace_placeholders_in_paragraph para placeholders = some ([q], true) ∧
      q.runs.length = para.runs.length ∧
      (∀ k : Nat, (q.runs[k]?).map Run.bold = (para.runs[k]?).map Run.bold) ∧
      (∀ r', q.runs[si]? = some r' →
        r'.fontName = some FONT_NAME ∧ r'.fontSize = some FONT_SIZE_11PT) ∧
      (∀ k : Nat, ¬ (k = si) →
        (q.runs[k]?).map Run.fontName = (para.runs[k]?).map Run.fontName ∧
        (q.runs[k]?).map Run.fontSize = (para.runs[k]?).map Run.fontSize) := by
  have hlen' : (spliceValue para.runs si sc ei ec (sanitize_text_content v)).length
      = para.runs.length := spliceValue_length _ _ _ _ _ _
  have hsi' : si < (spliceValue para.runs si sc ei ec (sanitize_text_content v)).length := by
    omega
  obtain ⟨rs, hrs⟩ : ∃ rs,
      (spliceValue para.runs si sc ei ec (sanitize_text_content v))[si]? = some rs :=
    ⟨_, List.getElem?_eq_getElem hsi'⟩
  have hfields := spliceValue_fields para.runs si sc ei ec (sanitize_text_content v)
  refine ⟨applyDefaultFmtAt
      { para with runs := spliceValue para.runs si sc ei ec (sanitize_text_content v) } si,
    single_match_value_pass para placeholders s e si sc ei ec nm v
      hscan hg hlk hns hnr hs he hsi hei, ?_, ?_, ?_, ?_⟩
  · rw [applyDefaultFmtAt_runs_length]
    exact hlen'
  · intro k
    by_cases hk : k = si
    · subst hk
      rw [show (applyDefaultFmtAt
          { para with runs := spliceValue para.runs k sc ei ec (sanitize_text_content v) }
            k).runs[k]? =
          some { rs with fontName := some FONT_NAME, fontSize := some FONT_SIZE_11PT } from
        applyDefaultFmtAt_getElem?_eq _ k rs hsi' hrs]
      have hb := (hfields k).2.2
      rw [hrs] at hb
      simpa using hb
    · rw [applyDefaultFmtAt_getElem?_ne _ _ _ hk]
      exact (hfields k).2.2
  · intro r' hr'
    rw [applyDefaultFmtAt_getElem?_eq _ si rs hsi' hrs] at hr'
    cases hr'
    exact ⟨rfl, rfl⟩
  · intro k hk
    rw [applyDefaultFmtAt_getElem?_ne _ _ _ hk]
    exact ⟨(hfields k).1, (hfields k).2.1⟩

/-- Witness for C7 (amended) at the single-run bold paragraph of the
counterexample. -/
theorem splice_formatting_normalization_witness :
    ∃ q, replace_placeholders_in_paragraph
        { runs := [{ text := ("\x7b\x7bX\x7d\x7d").toList, fontName := some (("Arial").toList), fontSize := some 9, bold := some true }] }
        [(("X").toList, ("v").toList)] = some ([q], true) ∧
      q.runs.length = ([{ text := ("\x7b\x7bX\x7d\x7d").toList, fontName := some (("Arial").toList), fontSize := some 9, bold := some true }] : List Run).length ∧
      (∀ k : Nat, (q.runs[k]?).map Run.bold =
        (([{ text := ("\x7b\x7bX\x7d\x7d").toList, fontName := some (("Arial").toList), fontSize := some 9, bold := some true }] : List Run)[k]?).map Run.bold) ∧
      (∀ r', q.runs[0]? = some r' →
        r'.fontName = some FONT_NAME ∧ r'.fontSize = some FONT_SIZE_11PT) ∧
      (∀ k : Nat, ¬ (k = 0) →
        (q.runs[k]?).map Run.fontName =
          (([{ text := ("\x7b\x7bX\x7d\x7d").toList, fontName := some (("Arial").toList), fontSize := some 9, bold := some true }] : List Run)[k]?).map Run.fontName ∧
        (q.runs[k]?).map Run.fontSize =
          (([{ text := ("\x7b\x7bX\x7d\x7d").toList, fontName := some (("Arial").toList), fontSize := some 9, bold := some true }] : List Run)[k]?).map Run.fontSize) :=
  splice_formatting_normalization _ _ 0 5 0 0 0 4 (("X").toList) (("v").toList)
    (by decide) (by decide) (by decide) (by decide) (by decide)
    (by decide) (by decide) (by decide) (by decide)

/-! ## Claim C4: classification of matches -/

theorem foldlM_valueStep_skip (placeholders : List (List Char × List Char))
    (ms : List (Nat × Nat × List Char)) (st : VState)
    (h : ∀ m ∈ ms, placeholders.lookup m.2.2 = none) :
    ms.foldlM (valueStep placeholders) st = some st := by
  induction ms generalizing st with
  | nil => rfl
  | cons m rest ih =>
    obtain ⟨s, e, nm⟩ := m
    rw [List.foldlM_cons]
    have hm : placeholders.lookup nm = none := h (s, e, nm) (by simp)
    unfold valueStep
    dsimp only
    rw [hm]
    exact ih st fun m hmm => h m (by simp [hmm])

/-- A paragraph none of whose matched names is in the value map is left
untouched by the value pass. -/
theorem value_pass_skip (para : Para) (placeholders : List (List Char × List Char))
    (h : ∀ m ∈ tokenScan (logicalText para.runs), placeholders.lookup m.2.2 = none) :
    replace_placeholders_in_paragraph para placeholders = some ([para], false) := by
  unfold replace_placeholders_in_paragraph
  dsimp only
  split
  · rfl
  · rw [foldlM_valueStep_skip placeholders _ _
      fun m hm => h m (by rwa [List.mem_reverse] at hm)]
    simp

theorem imgGo_skip (images : List (List Char × ImgBytes)) (para : Para)
    (ctr : List (Nat × Nat)) (ms : List (Nat × Nat × List Char))
    (h : ∀ m ∈ ms, images.lookup m.2.2 = none) :
    imgGo images para ctr ms = .ok (para, false) := by
  induction ms with
  | nil => rfl
  | cons m rest ih =>
    obtain ⟨s, e, nm⟩ := m
    unfold imgGo
    rw [h (s, e, nm) (by simp)]
    exact ih fun m hmm => h m (by simp [hmm])

/-- A paragraph none of whose image-pattern matches is in the image map is
left untouched by the image pass. -/
theorem image_pass_skip (para : Para) (images : List (List Char × ImgBytes))
    (h : ∀ m ∈ imageScan (logicalText para.runs), images.lookup m.2.2 = none) :
    replace_image_placeholders_in_paragraph para images = .ok (para, false) := by
  unfold replace_image_placeholders_in_paragraph
  dsimp only
  split
  · rfl
  · exact imgGo_skip images para _ _ fun m hm => h m (by rwa [List.mem_reverse] at hm)

theorem sponsorGo_ne_nil (fc : Bool) (cur : Para) (items : List SPara) :
    sponsorGo fc cur items ≠ [] := by
  induction items generalizing fc cur with
  | nil => simp [sponsorGo]
  | cons item rest ih =>
    unfold sponsorGo
    split
    · exact ih _ _
    · simp

theorem insert_sponsor_ne_nil (p : Para) (content : List Char) :
    insert_sponsor_paragraphs p content ≠ [] := by
  unfold insert_sponsor_paragraphs
  dsimp only
  split
  · simp
  · exact sponsorGo_ne_nil _ _ _

theorem risksGo_ne_nil (fc : Bool) (cur : Para) (items : List RItem) :
    risksGo fc cur items ≠ [] := by
  induction items generalizing fc cur with
  | nil => simp [risksGo]
  | cons item rest ih =>
    cases item with
    | blank => simp [risksGo]
    | risk n m =>
      unfold risksGo
      split
      · exact ih _ _
      · simp
    | text t =>
      unfold risksGo
      split
      · exact ih _ _
      · simp

theorem insert_risks_ne_nil (p : Para) (content : List Char) :
    insert_risks_paragraphs p content ≠ [] := by
  unfold insert_risks_paragraphs
  dsimp only
  split
  · simp
  · exact risksGo_ne_nil _ _ _

/-- Evaluate the value pass when the single match is `SPONSOR_SECTION` and
the name is in the value map: the structured expander runs, replacing the
paragraph by the expansion chain. -/
theorem single_match_sponsor_pass (para : Para)
    (placeholders : List (List Char × List Char)) (s e : Nat) (v : List Char)
    (hscan : tokenScan (logicalText para.runs) = [(s, e, sponsorKey)])
    (hg : containsSub lb2 (logicalText para.runs) = true)
    (hlk : placeholders.lookup sponsorKey = some v) :
    replace_placeholders_in_paragraph para placeholders =
      some (insert_sponsor_paragraphs para v, true) := by
  have hft : logicalText para.runs ≠ [] := by
    intro h
    rw [h] at hscan
    simp [tokenScan, scanAux] at hscan
  cases hins : insert_sponsor_paragraphs para v with
  | nil => exact absurd hins (insert_sponsor_ne_nil _ _)
  | cons p ps =>
    have hstep : valueStep placeholders
        { first := para, tail := [], ctr := char_to_run para.runs, modified := false, fmts := [] }
        (s, e, sponsorKey) = some
        { first := p, tail := ps ++ [], ctr := char_to_run para.runs,
          modified := true, fmts := [] } := by
      unfold valueStep
      dsimp only
      rw [hlk]
      dsimp only
      rw [if_pos rfl, hins]
    unfold replace_placeholders_in_paragraph
    dsimp only
    rw [if_neg (by simp [hft, hg]), hscan, List.reverse_singleton, List.foldlM_cons, hstep]
    simp

/-- Evaluate the value pass when the single match is `RISKS_SECTION` and the
name is in the value map. -/
theorem single_match_risks_pass (para : Para)
    (placeholders : List (List Char × List Char)) (s e : Nat) (v : List Char)
    (hscan : tokenScan (logicalText para.runs) = [(s, e, risksKey)])
    (hg : containsSub lb2 (logicalText para.runs) = true)
    (hlk : placeholders.lookup risksKey = some v) :
    replace_placeholders_in_paragraph para placeholders =
      some (insert_risks_paragraphs para v, true) := by
  have hft : logicalText para.runs ≠ [] := by
    intro h
    rw [h] at hscan
    simp [tokenScan, scanAux] at hscan
  cases hins : insert_risks_paragraphs para v with
  | nil => exact absurd hins (insert_risks_ne_nil _ _)
  | cons p ps =>
    have hstep : valueStep placeholders
        { first := para, tail := [], ctr := char_to_run para.runs, modified := false, fmts := [] }
        (s, e, risksKey) = some
        { first := p, tail := ps ++ [], ctr := char_to_run para.runs,
          modified := true, fmts := [] } := by
      unfold valueStep
      dsimp only
      rw [hlk]
      dsimp only
      rw [if_neg (by decide), if_pos rfl, hins]
    unfold replace_placeholders_in_paragraph
    dsimp only
    rw [if_neg (by simp [hft, hg]), hscan, List.reverse_singleton, List.foldlM_cons, hstep]
    simp

/-- Counterexample to **C4** as stated: the name `IMAGE_X` starts with
`IMAGE_`, yet when it is present in the *value* map the value pass replaces
the token as a plain value substitution — the claim's "never as a plain
value substitution" is false on the code. -/
theorem placeholder_precedence_counterexample :
    imageLit.isPrefixOf (("IMAGE_X").toList) = true ∧
    replace_placeholders_in_paragraph
      { runs := [{ text := ("\x7b\x7bIMAGE_X\x7d\x7d").toList }] }
      [(("IMAGE_X").toList, ("hello").toList)] =
    some ([{ runs := [{ text := ("hello").toList, fontName := some FONT_NAME, fontSize := some FONT_SIZE_11PT, bold := none, pics := [] }] }], true) :=
  ⟨rfl, rfl⟩

/-- **C4 (amended).** Classification of a match is governed by the value map
first: a name present in the value map always resolves in the value pass —
`SPONSOR_SECTION` and `RISKS_SECTION` to their structured handlers, every
other present name (whether or not it starts with `IMAGE_`) as a plain
value substitution.  A name absent from the value map is left verbatim by
the value pass, and an image-pattern token is then resolved by the image
pass only if its name is present in the image map. -/
theorem placeholder_classification (para : Para)
    (placeholders : List (List Char × List Char)) (images : List (List Char × ImgBytes))
    (s e : Nat) (nm : List Char)
    (hscan : tokenScan (logicalText para.runs) = [(s, e, nm)])
    (hg : containsSub lb2 (logicalText para.runs) = true) :
    (placeholders.lookup nm = none →
      replace_placeholders_in_paragraph para placeholders = some ([para], false)) ∧
    (∀ v, placeholders.lookup nm = some v → nm = sponsorKey →
      replace_placeholders_in_paragraph para placeholders =
        some (insert_sponsor_paragraphs para v, true)) ∧
    (∀ v, placeholders.lookup nm = some v → nm = risksKey →
      replace_placeholders_in_paragraph para placeholders =
        some (insert_risks_paragraphs para v, true)) ∧
    (∀ v si sc ei ec, placeholders.lookup nm = some v →
      ¬ (nm = sponsorKey) → ¬ (nm = risksKey) →
      (char_to_run para.runs)[s]? = some (si, sc) →
      (char_to_run para.runs)[e - 1]? = some (ei, ec) →
      si < para.runs.length → ei < para.runs.length →
      replace_placeholders_in_paragraph para placeholders =
        some ([applyDefaultFmtAt
          { para with runs := spliceValue para.runs si sc ei ec (sanitize_text_content v) }
          si], true)) ∧
    ((∀ m ∈ imageScan (logicalText para.runs), images.lookup m.2.2 = none) →
      replace_image_placeholders_in_paragraph para images = .ok (para, false)) := by
  refine ⟨?_, ?_, ?_, ?_, image_pass_skip para images⟩
  · intro hn
    exact value_pass_skip para placeholders (by rw [hscan]; simpa using hn)
  · intro v hv hk
    subst hk
    exact single_match_sponsor_pass para placeholders s e v hscan hg hv
  · intro v hv hk
    subst hk
    exact single_match_risks_pass para placeholders s e v hscan hg hv
  · intro v si sc ei ec hv hns hnr hs he hsi hei
    exact single_match_value_pass para placeholders s e si sc ei ec nm v
      hscan hg hv hns hnr hs he hsi hei

/-- Witness for C4 (amended) at the `IMAGE_X` token paragraph of the
counterexample. -/
theorem placeholder_classification_witness :
    (([(("IMAGE_X").toList, ("hello").toList)] : List (List Char × List Char)).lookup (("IMAGE_X").toList) = none →
      replace_placeholders_in_paragraph
        { runs := [{ text := ("\x7b\x7bIMAGE_X\x7d\x7d").toList }] }
        [(("IMAGE_X").toList, ("hello").toList)] =
        some ([{ runs := [{ text := ("\x7b\x7bIMAGE_X\x7d\x7d").toList }] }], false)) ∧
    (∀ v, ([(("IMAGE_X").toList, ("hello").toList)] : List (List Char × List Char)).lookup (("IMAGE_X").toList) = some v → ("IMAGE_X").toList = sponsorKey →
      replace_placeholders_in_paragraph
        { runs := [{ text := ("\x7b\x7bIMAGE_X\x7d\x7d").toList }] }
        [(("IMAGE_X").toList, ("hello").toList)] =
        some (insert_sponsor_paragraphs { runs := [{ text := ("\x7b\x7bIMAGE_X\x7d\x7d").toList }] } v, true)) ∧
    (∀ v, ([(("IMAGE_X").toList, ("hello").toList)] : List (List Char × List Char)).lookup (("IMAGE_X").toList) = some v → ("IMAGE_X").toList = risksKey →
      replace_placeholders_in_paragraph
        { runs := [{ text := ("\x7b\x7bIMAGE_X\x7d\x7d").toList }] }
        [(("IMAGE_X").toList, ("hello").toList)] =
        some (insert_risks_paragraphs { runs := [{ text := ("\x7b\x7bIMAGE_X\x7d\x7d").toList }] } v, true)) ∧
    (∀ v si sc ei ec, ([(("IMAGE_X").toList, ("hello").toList)] : List (List Char × List Char)).lookup (("IMAGE_X").toList) = some v →
      ¬ (("IMAGE_X").toList = sponsorKey) → ¬ (("IMAGE_X").toList = risksKey) →
      (char_to_run [{ text := ("\x7b\x7bIMAGE_X\x7d\x7d").toList }])[0]? = some (si, sc) →
      (char_to_run [{ text := ("\x7b\x7bIMAGE_X\x7d\x7d").toList }])[11 - 1]? = some (ei, ec) →
      si < ([{ text := ("\x7b\x7bIMAGE_X\x7d\x7d").toList }] : List Run).length →
      ei < ([{ text := ("\x7b\x7bIMAGE_X\x7d\x7d").toList }] : List Run).length →
      replace_placeholders_in_paragraph
        { runs := [{ text := ("\x7b\x7bIMAGE_X\x7d\x7d").toList }] }
        [(("IMAGE_X").toList, ("hello").toList)] =
        some ([applyDefaultFmtAt
          { runs := spliceValue [{ text := ("\x7b\x7bIMAGE_X\x7d\x7d").toList }] si sc ei ec (sanitize_text_content v) }
          si], true)) ∧
    ((∀ m ∈ imageScan (logicalText [{ text := ("\x7b\x7bIMAGE_X\x7d\x7d").toList }]),
        ([] : List (List Char × ImgBytes)).lookup m.2.2 = none) →
      replace_image_placeholders_in_paragraph
        { runs := [{ text := ("\x7b\x7bIMAGE_X\x7d\x7d").toList }] } [] =
        .ok ({ runs := [{ text := ("\x7b\x7bIMAGE_X\x7d\x7d").toList }] }, false)) :=
  placeholder_classification
    { runs := [{ text := ("\x7b\x7bIMAGE_X\x7d\x7d").toList }] }
    [(("IMAGE_X").toList, ("hello").toList)] [] 0 11 (("IMAGE_X").toList)
    (by decide) (by decide)

/-! ## Claim C8: the sponsor header heuristic -/

theorem sponsorLines_cons (l : List Char) (rest : List (List Char)) :
    sponsorLines (l :: rest) = classifySponsorLine l rest[0]? :: sponsorLines rest := by
  by_cases hbl : pyStrip l = []
  · cases rest <;> simp [sponsorLines, classifySponsorLine, hbl]
  · cases rest <;> simp [sponsorLines, classifySponsorLine, hbl]

theorem sponsorLines_classify (lines : List (List Char)) (i : Nat) :
    (sponsorLines lines)[i]? =
      (lines[i]?).map fun l => classifySponsorLine l lines[i + 1]? := by
  induction lines generalizing i with
  | nil => simp [sponsorLines]
  | cons l rest ih =>
    rw [sponsorLines_cons]
    cases i with
    | zero => simp
    | succ i' =>
      simp only [List.getElem?_cons_succ]
      exact ih i'

/-- Counterexample to **C8** as stated: the non-blank line `Hello World`
satisfies every condition of the claim's heuristic (shorter than 80
characters, no terminal `.`/`!`/`?`, an uppercase letter, and a next
non-blank line starting with a lowercase letter that is at least 1.5 times
longer), yet the parser emits it as regular-weight body text, not as a bold
header. -/
theorem sponsor_header_heuristic_counterexample :
    specSponsorHeader (("Hello World").toList)
      (some (("this is lowercase next line.").toList)) = true ∧
    (parse_sponsor_section (("Hello World\nthis is lowercase next line.").toList)).map
      SPara.bold = [false, false] ∧
    (parse_sponsor_section (("Hello World\nthis is lowercase next line.").toList)).map
      SPara.is_blank = [false, false] ∧
    (parse_sponsor_section (("Hello World\nthis is lowercase next line.").toList)).map
      SPara.text = [("Hello World").toList, ("this is lowercase next line.").toList] :=
  ⟨by decide, by decide, by decide, by decide⟩

/-- **C8 (amended).** For every sanitized sponsor-block input, the parser
emits one item per line, classified by a pure per-line function of the line
and its immediate successor; a blank line becomes a blank item, and a
non-blank line is emitted as a bold header exactly when the code's elif
chain fires: it starts with `sponsorship` (case-insensitively), or contains
`" – "` (en dash), or contains `" - "` while shorter than 80 characters and
splitting on the first `" - "` leaves both halves shorter than 40
characters, or — failing the `" - "` guard — it is shorter than 60
characters, does not end in `.`, and the immediately following line is
longer than 80 characters.  Every other non-blank line is body text. -/
theorem sponsor_header_heuristic :
    (∀ content : List Char, ¬ (content = []) → ∀ i : Nat,
      (parse_sponsor_section content)[i]? =
        (((sanitize_text_content content).splitOn '\n')[i]?).map fun l =>
          classifySponsorLine l ((sanitize_text_content content).splitOn '\n')[i + 1]?) ∧
    (∀ l next, pyStrip l = [] →
      classifySponsorLine l next = { text := [], bold := false, is_blank := true }) ∧
    (∀ l next, ¬ (pyStrip l = []) →
      (classifySponsorLine l next).text = pyStrip l ∧
      (classifySponsorLine l next).is_blank = false ∧
      ((classifySponsorLine l next).bold = true ↔
        (("sponsorship").toList <+: (pyStrip l).map Char.toLower ∨
         containsSub [' ', enDash, ' '] (pyStrip l) = true ∨
         (containsSub [' ', '-', ' '] (pyStrip l) = true ∧ (pyStrip l).length < 80 ∧
           (∃ a b, splitFirstSub [' ', '-', ' '] (pyStrip l) = some (a, b) ∧
             a.length < 40 ∧ b.length < 40)) ∨
         (¬ (containsSub [' ', '-', ' '] (pyStrip l) = true ∧ (pyStrip l).length < 80) ∧
           (pyStrip l).length < 60 ∧ ¬ ((pyStrip l).getLast? = some '.') ∧
           (∃ nl, next = some nl ∧ ¬ (pyStrip nl = []) ∧ (pyStrip nl).length > 80))))) := by
  refine ⟨?_, ?_, ?_⟩
  · intro content hc i
    unfold parse_sponsor_section
    rw [if_neg hc]
    exact sponsorLines_classify _ i
  · intro l next hbl
    simp [classifySponsorLine, hbl]
  · intro l next hne
    unfold classifySponsorLine
    rw [if_neg hne]
    refine ⟨rfl, rfl, ?_⟩
    dsimp only
    by_cases h1 : ['s', 'p', 'o', 'n', 's', 'o', 'r', 's', 'h', 'i', 'p'] <+:
        (pyStrip l).map Char.toLower
    · rw [if_pos (by simp [h1])]
      simp [h1]
    · rw [if_neg (by simp [h1])]
      by_cases h2 : containsSub [' ', enDash, ' '] (pyStrip l) = true
      · rw [if_pos h2]
        simp [h1, h2]
      · simp only [Bool.not_eq_true] at h2
        rw [if_neg (by simp [h2])]
        by_cases h3 : containsSub [' ', '-', ' '] (pyStrip l) = true ∧ (pyStrip l).length < 80
        · rw [if_pos h3]
          cases hsp : splitFirstSub [' ', '-', ' '] (pyStrip l) with
          | none => simp [h1, h2, h3, hsp]
          | some ab =>
            obtain ⟨a, b⟩ := ab
            simp [h1, h2, h3, hsp, and_assoc]
        · rw [if_neg h3]
          by_cases h4 : (pyStrip l).length < 60 ∧ ¬ ((pyStrip l).getLast? = some '.')
          · rw [if_pos h4]
            cases next with
            | none =>
              simp [h1, h2, h4]
              intro hc hlen
              exact absurd ⟨hc, hlen⟩ h3
            | some nl =>
              simp [h1, h2, h4, and_assoc]
              constructor
              · intro ha
                exact Or.inr ⟨fun hc => le_of_not_lt fun hlen => h3 ⟨hc, hlen⟩, ha⟩
              · rintro (⟨hc, hlen, _⟩ | ⟨_, ha⟩)
                · exact absurd ⟨hc, hlen⟩ h3
                · exact ha
          · rw [if_neg h4]
            simp [h1, h2, h3, h4]
            exact ⟨fun hc hlen => absurd ⟨hc, hlen⟩ h3,
              fun hlen hdot => absurd ⟨hlen, hdot⟩ h4⟩

/-! ## Claim C9: the risk/mitigant expansion -/

theorem riskBlock_tab (block : List Char) (h : containsSub ['\t'] block = true) :
    riskBlock block =
      RItem.risk (pyStrip (splitFirst '\t' block).1) (pyStrip (splitFirst '\t' block).2) := by
  unfold riskBlock
  rw [if_pos h]

theorem riskFill_empty_runs (p : Para) (hp : p.runs = []) (n m : List Char) :
    riskFill p n m =
      { runs := [mkRun n true, { text := ['\t'] }, mkRun m false],
        indLeft := some 2160, indHanging := some 2160, jc := some (("both").toList),
        spaceAfter := some 0, lineSpacing := some 240 } := by
  unfold riskFill
  cases p
  simp_all

/-- The tail phase of the risks loop (after the first block): starting from
any current paragraph, each remaining block contributes one risk paragraph
preceded by the pending separator, and the loop ends without a trailing
blank. -/
theorem risksGo_false_blocks (B : List (List Char))
    (hb : ∀ b ∈ B, ¬ (pyStrip b = []) ∧ containsSub ['\t'] (pyStrip b) = true)
    (hne : ¬ (B = [])) (cur : Para) :
    (risksGo false cur (riskBlocksGo B)).length = 2 * B.length ∧
    (risksGo false cur (riskBlocksGo B))[0]? = some cur ∧
    (∀ j : Nat, (risksGo false cur (riskBlocksGo B))[2 * j + 1]? =
      (B[j]?).map fun b =>
        { runs := [mkRun (pyStrip (splitFirst '\t' (pyStrip b)).1) true, { text := ['\t'] },
                   mkRun (pyStrip (splitFirst '\t' (pyStrip b)).2) false],
          indLeft := some 2160, indHanging := some 2160, jc := some (("both").toList),
          spaceAfter := some 0, lineSpacing := some 240 }) ∧
    (∀ j : Nat, j + 1 < B.length →
      (risksGo false cur (riskBlocksGo B))[2 * j + 2]? = some blankSpacerPara) := by
  induction B generalizing cur with
  | nil => exact absurd rfl hne
  | cons b rest ih =>
    have hbb := hb b (by simp)
    cases rest with
    | nil =>
      rw [show riskBlocksGo [b] = [riskBlock (pyStrip b)] from by
        simp [riskBlocksGo, hbb.1]]
      rw [riskBlock_tab _ hbb.2]
      refine ⟨rfl, rfl, ?_, ?_⟩
      · intro j
        cases j with
        | zero => simp [risksGo, riskFill_empty_runs]
        | succ j' =>
          have h1 : 2 * (j' + 1) + 1 = (j' + 1) + (j' + 1) + 1 := by omega
          simp [risksGo, riskFill_empty_runs, List.getElem?_cons_succ, h1]
          omega
      · intro j hj
        simp at hj
    | cons b2 rest2 =>
      rw [show riskBlocksGo (b :: b2 :: rest2) =
          riskBlock (pyStrip b) :: RItem.blank :: riskBlocksGo (b2 :: rest2) from by
        simp [riskBlocksGo, hbb.1]]
      rw [riskBlock_tab _ hbb.2]
      have hstep : risksGo false cur
          (RItem.risk (pyStrip (splitFirst '\t' (pyStrip b)).1)
              (pyStrip (splitFirst '\t' (pyStrip b)).2) ::
            RItem.blank :: riskBlocksGo (b2 :: rest2)) =
          cur :: riskFill { runs := [] } (pyStrip (splitFirst '\t' (pyStrip b)).1)
              (pyStrip (splitFirst '\t' (pyStrip b)).2) ::
            risksGo false blankSpacerPara (riskBlocksGo (b2 :: rest2)) := by
        rw [show risksGo false cur
            (RItem.risk (pyStrip (splitFirst '\t' (pyStrip b)).1)
                (pyStrip (splitFirst '\t' (pyStrip b)).2) ::
              RItem.blank :: riskBlocksGo (b2 :: rest2)) =
            cur :: risksGo false
              (riskFill { runs := [] } (pyStrip (splitFirst '\t' (pyStrip b)).1)
                (pyStrip (splitFirst '\t' (pyStrip b)).2))
              (RItem.blank :: riskBlocksGo (b2 :: rest2)) from by
          simp [risksGo]]
        rw [show ∀ q, risksGo false q (RItem.blank :: riskBlocksGo (b2 :: rest2)) =
            q :: risksGo false blankSpacerPara (riskBlocksGo (b2 :: rest2)) from
          fun q => by simp [risksGo]]
      obtain ⟨ihl, ih0, ihr, ihbl⟩ :=
        ih (fun x hx => hb x (by simp [hx])) (by simp) blankSpacerPara
      rw [hstep]
      refine ⟨by simp [ihl]; omega, ?_, ?_, ?_⟩
      · rfl
      · intro j
        cases j with
        | zero =>
          simp [riskFill_empty_runs]
        | succ j' =>
          have h1 : 2 * (j' + 1) + 1 = (2 * j' + 1) + 1 + 1 := by omega
          rw [h1]
          simp only [List.getElem?_cons_succ]
          exact ihr j'
      · intro j hj
        cases j with
        | zero =>
          simpa using ih0
        | succ j' =>
          have h1 : 2 * (j' + 1) + 2 = (2 * j' + 2) + 1 + 1 := by omega
          rw [h1]
          simp only [List.getElem?_cons_succ]
          exact ihbl j' (by simp at hj ⊢; omega)

theorem riskBlocksGo_ne_nil (B : List (List Char))
    (hb : ∀ b ∈ B, ¬ (pyStrip b = []) ∧ containsSub ['\t'] (pyStrip b) = true)
    (hne : ¬ (B = [])) : ¬ (riskBlocksGo B = []) := by
  cases B with
  | nil => exact absurd rfl hne
  | cons b rest =>
    have hbb := hb b (by simp)
    cases rest with
    | nil => simp [riskBlocksGo, hbb.1]
    | cons b2 rest2 => simp [riskBlocksGo, hbb.1]

/-- The full risks loop: the first block fills the cleared original
paragraph, and the rest alternate with single blank separators, with no
blank after the last. -/
theorem risksGo_true_blocks (B : List (List Char))
    (hb : ∀ b ∈ B, ¬ (pyStrip b = []) ∧ containsSub ['\t'] (pyStrip b) = true)
    (hne : ¬ (B = [])) (cur : Para) (hcur : cur.runs = []) :
    (risksGo true cur (riskBlocksGo B)).length = 2 * B.length - 1 ∧
    (∀ j : Nat, (risksGo true cur (riskBlocksGo B))[2 * j]? =
      (B[j]?).map fun b =>
        { runs := [mkRun (pyStrip (splitFirst '\t' (pyStrip b)).1) true, { text := ['\t'] },
                   mkRun (pyStrip (splitFirst '\t' (pyStrip b)).2) false],
          indLeft := some 2160, indHanging := some 2160, jc := some (("both").toList),
          spaceAfter := some 0, lineSpacing := some 240 }) ∧
    (∀ j : Nat, j + 1 < B.length →
      (risksGo true cur (riskBlocksGo B))[2 * j + 1]? = some blankSpacerPara) := by
  cases B with
  | nil => exact absurd rfl hne
  | cons b rest =>
    have hbb := hb b (by simp)
    cases rest with
    | nil =>
      rw [show riskBlocksGo [b] = [riskBlock (pyStrip b)] from by
        simp [riskBlocksGo, hbb.1]]
      rw [riskBlock_tab _ hbb.2]
      refine ⟨rfl, ?_, ?_⟩
      · intro j
        cases j with
        | zero => simp [risksGo, riskFill_empty_runs _ hcur]
        | succ j' =>
          have h1 : 2 * (j' + 1) = (j' + 1) + (j' + 1) := by omega
          simp [risksGo, h1]
          omega
      · intro j hj
        simp at hj
    | cons b2 rest2 =>
      rw [show riskBlocksGo (b :: b2 :: rest2) =
          riskBlock (pyStrip b) :: RItem.blank :: riskBlocksGo (b2 :: rest2) from by
        simp [riskBlocksGo, hbb.1]]
      rw [riskBlock_tab _ hbb.2]
      have hstep : risksGo true cur
          (RItem.risk (pyStrip (splitFirst '\t' (pyStrip b)).1)
              (pyStrip (splitFirst '\t' (pyStrip b)).2) ::
            RItem.blank :: riskBlocksGo (b2 :: rest2)) =
          riskFill cur (pyStrip (splitFirst '\t' (pyStrip b)).1)
              (pyStrip (splitFirst '\t' (pyStrip b)).2) ::
            risksGo false blankSpacerPara (riskBlocksGo (b2 :: rest2)) := by
        rw [show risksGo true cur
            (RItem.risk (pyStrip (splitFirst '\t' (pyStrip b)).1)
                (pyStrip (splitFirst '\t' (pyStrip b)).2) ::
              RItem.blank :: riskBlocksGo (b2 :: rest2)) =
            risksGo false
              (riskFill cur (pyStrip (splitFirst '\t' (pyStrip b)).1)
                (pyStrip (splitFirst '\t' (pyStrip b)).2))
              (RItem.blank :: riskBlocksGo (b2 :: rest2)) from by
          simp [risksGo]]
        rw [show ∀ q, risksGo false q (RItem.blank :: riskBlocksGo (b2 :: rest2)) =
            q :: risksGo false blankSpacerPara (riskBlocksGo (b2 :: rest2)) from
          fun q => by simp [risksGo]]
      obtain ⟨ihl, ih0, ihr, ihbl⟩ := risksGo_false_blocks (b2 :: rest2)
        (fun x hx => hb x (by simp [hx])) (by simp) blankSpacerPara
      rw [hstep]
      refine ⟨by simp [ihl]; omega, ?_, ?_⟩
      · intro j
        cases j with
        | zero =>
          simp [riskFill_empty_runs _ hcur]
        | succ j' =>
          have h1 : 2 * (j' + 1) = (2 * j' + 1) + 1 := by omega
          rw [h1]
          simp only [List.getElem?_cons_succ]
          exact ihr j'
      · intro j hj
        cases j with
        | zero =>
          simpa using ih0
        | succ j' =>
          have h1 : 2 * (j' + 1) + 1 = (2 * j' + 2) + 1 := by omega
          rw [h1]
          simp only [List.getElem?_cons_succ]
          exact ihbl j' (by simp at hj ⊢; omega)

/-- **C9.** For a sanitized risk/mitigant input whose blank-line-separated
blocks all contain a tab, the expansion produces exactly `2k - 1`
paragraphs for `k` blocks: at every even position one risk paragraph with
exactly three runs — a bold Times New Roman 11 pt risk-name run, a bare
literal-tab run, and a non-bold mitigant run — carrying
`left-indent = hanging-indent = 2160` twips and full (`both`)
justification; at every odd position exactly one empty spacer paragraph
between consecutive blocks, and never one after the last block. -/
theorem risks_section_structure (orig : Para) (content : List Char)
    (hc : ¬ (content = []))
    (hne : ¬ (splitBlankRuns (sanitize_text_content content) = []))
    (hblocks : ∀ b ∈ splitBlankRuns (sanitize_text_content content),
      ¬ (pyStrip b = []) ∧ containsSub ['\t'] (pyStrip b) = true) :
    (insert_risks_paragraphs orig content).length =
      2 * (splitBlankRuns (sanitize_text_content content)).length - 1 ∧
    (∀ j : Nat, (insert_risks_paragraphs orig content)[2 * j]? =
      ((splitBlankRuns (sanitize_text_content content))[j]?).map fun b =>
        { runs := [mkRun (pyStrip (splitFirst '\t' (pyStrip b)).1) true, { text := ['\t'] },
                   mkRun (pyStrip (splitFirst '\t' (pyStrip b)).2) false],
          indLeft := some 2160, indHanging := some 2160, jc := some (("both").toList),
          spaceAfter := some 0, lineSpacing := some 240 }) ∧
    (∀ j : Nat, j + 1 < (splitBlankRuns (sanitize_text_content content)).length →
      (insert_risks_paragraphs orig content)[2 * j + 1]? =
        some { runs := [], spaceAfter := some 0, lineSpacing := some 240 }) := by
  have hins : insert_risks_paragraphs orig content =
      risksGo true { orig with runs := [] }
        (riskBlocksGo (splitBlankRuns (sanitize_text_content content))) := by
    unfold insert_risks_paragraphs parse_risks_section
    rw [if_neg hc]
    dsimp only
    rw [if_neg (riskBlocksGo_ne_nil _ hblocks hne)]
  rw [hins]
  exact risksGo_true_blocks _ hblocks hne _ rfl

/-- Witness for C9 at the two-block example
`Market Risk<TAB>Rates may rise.` / `Construction Risk<TAB>Delays possible.`:
two risk paragraphs separated by exactly one blank paragraph. -/
theorem risks_section_structure_witness :
    (insert_risks_paragraphs { runs := [] }
      (("Market Risk\tRates may rise.\n\nConstruction Risk\tDelays possible.").toList)).length =
      2 * (splitBlankRuns (sanitize_text_content
        (("Market Risk\tRates may rise.\n\nConstruction Risk\tDelays possible.").toList))).length - 1 ∧
    (∀ j : Nat, (insert_risks_paragraphs { runs := [] }
      (("Market Risk\tRates may rise.\n\nConstruction Risk\tDelays possible.").toList))[2 * j]? =
      ((splitBlankRuns (sanitize_text_content
        (("Market Risk\tRates may rise.\n\nConstruction Risk\tDelays possible.").toList)))[j]?).map fun b =>
        { runs := [mkRun (pyStrip (splitFirst '\t' (pyStrip b)).1) true, { text := ['\t'] },
                   mkRun (pyStrip (splitFirst '\t' (pyStrip b)).2) false],
          indLeft := some 2160, indHanging := some 2160, jc := some (("both").toList),
          spaceAfter := some 0, lineSpacing := some 240 }) ∧
    (∀ j : Nat, j + 1 < (splitBlankRuns (sanitize_text_content
        (("Market Risk\tRates may rise.\n\nConstruction Risk\tDelays possible.").toList))).length →
      (insert_risks_paragraphs { runs := [] }
        (("Market Risk\tRates may rise.\n\nConstruction Risk\tDelays possible.").toList))[2 * j + 1]? =
        some { runs := [], spaceAfter := some 0, lineSpacing := some 240 }) :=
  risks_section_structure { runs := [] }
    (("Market Risk\tRates may rise.\n\nConstruction Risk\tDelays possible.").toList)
    (by decide) (by decide) (by decide)

/-! ## Claim C10: the image pass inserts at most one image -/

theorem drop_takeWhile_length (p : Char → Bool) (t : List Char) :
    t.drop (t.takeWhile p).length = t.dropWhile p := by
  induction t with
  | nil => rfl
  | cons c rest ih =>
    by_cases hc : p c = true
    · simp [List.takeWhile_cons, List.dropWhile_cons, hc, ih]
    · simp [List.takeWhile_cons, List.dropWhile_cons, hc]

theorem tryImageName_some (s2 nm s3 : List Char) (h : tryImageName s2 = some (nm, s3)) :
    ∃ more, nm = imageLit ++ more ∧ s2 = imageLit ++ more ++ rbrace :: rbrace :: s3 := by
  unfold tryImageName at h
  by_cases hpre : imageLit.isPrefixOf s2 = true
  · rw [if_pos hpre] at h
    obtain ⟨t, ht⟩ := List.isPrefixOf_iff_prefix.mp hpre
    subst ht
    have hdrop : (imageLit ++ t).drop 6 = t := by
      rw [show (6 : Nat) = imageLit.length from rfl, List.drop_left]
    rw [hdrop] at h
    dsimp only at h
    rw [drop_takeWhile_length] at h
    have hsplit : t = t.takeWhile isNameChar ++ t.dropWhile isNameChar :=
      (List.takeWhile_append_dropWhile _ _).symm
    cases hmm : t.takeWhile isNameChar with
    | nil =>
      rw [hmm] at h
      simp at h
    | cons m0 mrest =>
      cases hdd : t.dropWhile isNameChar with
      | nil =>
        rw [hmm, hdd] at h
        simp at h
      | cons c3 rest1 =>
        cases rest1 with
        | nil =>
          rw [hmm, hdd] at h
          simp at h
        | cons c4 s3' =>
          rw [hmm, hdd] at h
          dsimp only at h
          by_cases hbr : c3 = rbrace ∧ c4 = rbrace
          · rw [if_pos hbr] at h
            simp only [Option.some.injEq, Prod.mk.injEq] at h
            obtain ⟨hnm, hs3⟩ := h
            refine ⟨t.takeWhile isNameChar, by rw [← hnm, hmm], ?_⟩
            rw [show imageLit ++ t.takeWhile isNameChar ++ rbrace :: rbrace :: s3 =
                imageLit ++ (t.takeWhile isNameChar ++ rbrace :: rbrace :: s3) from by simp]
            congr 1
            conv_lhs => rw [hsplit]
            rw [hdd, hbr.1, hbr.2, hs3]
          · rw [if_neg hbr] at h
            simp at h
  · rw [if_neg hpre] at h
    simp at h

/-- Every match of the image scanner starts at or after the scan position,
has a positive width, and ends within the scanned text. -/
theorem scanImgAux_bounds (fuel : Nat) (l : List Char) (pos : Nat) :
    ∀ m ∈ scanImgAux fuel l pos, pos ≤ m.1 ∧ m.1 < m.2.1 ∧ m.2.1 ≤ pos + l.length := by
  induction fuel generalizing l pos with
  | zero => simp [scanImgAux]
  | succ fuel ih =>
    match l with
    | [] => simp [scanImgAux]
    | [c] => simp [scanImgAux]
    | c1 :: c2 :: s2 =>
      intro m hm
      unfold scanImgAux at hm
      split at hm
      · rename_i hbr
        match htry : tryImageName s2 with
        | some (nm, s3) =>
          rw [htry] at hm
          obtain ⟨more, hnm, hs2⟩ := tryImageName_some s2 nm s3 htry
          have hlen : s2.length = nm.length + 2 + s3.length := by
            rw [hs2, hnm]
            simp
            omega
          rcases List.mem_cons.mp hm with hm0 | hmtail
          · subst hm0
            refine ⟨le_refl _, by simp; omega, ?_⟩
            simp
            omega
          · obtain ⟨h1, h2, h3⟩ := ih s3 (pos + nm.length + 4) m hmtail
            refine ⟨by omega, h2, ?_⟩
            simp
            omega
        | none =>
          rw [htry] at hm
          obtain ⟨h1, h2, h3⟩ := ih (c2 :: s2) (pos + 1) m hm
          refine ⟨by omega, h2, ?_⟩
          simp at h3 ⊢
          omega
      · obtain ⟨h1, h2, h3⟩ := ih (c2 :: s2) (pos + 1) m hm
        refine ⟨by omega, h2, ?_⟩
        simp at h3 ⊢
        omega

/-- Matches of the image scanner are non-overlapping and ordered: each
match ends at or before the next one starts. -/
theorem scanImgAux_pairwise (fuel : Nat) (l : List Char) (pos : Nat) :
    List.Pairwise (fun a b => a.2.1 ≤ b.1) (scanImgAux fuel l pos) := by
  induction fuel generalizing l pos with
  | zero => simp [scanImgAux]
  | succ fuel ih =>
    match l with
    | [] => simp [scanImgAux]
    | [c] => simp [scanImgAux]
    | c1 :: c2 :: s2 =>
      unfold scanImgAux
      split
      · match htry : tryImageName s2 with
        | some (nm, s3) =>
          refine List.Pairwise.cons ?_ (ih s3 (pos + nm.length + 4))
          intro m hm
          exact (scanImgAux_bounds fuel s3 (pos + nm.length + 4) m hm).1
        | none => exact ih (c2 :: s2) (pos + 1)
      · exact ih (c2 :: s2) (pos + 1)

theorem list_eq_take_cons_drop {α : Type} (l : List α) (i : Nat) (x : α) (h : l[i]? = some x) :
    l = l.take i ++ x :: l.drop (i + 1) := by
  induction l generalizing i with
  | nil => simp at h
  | cons a rest ih =>
    cases i with
    | zero => simp_all
    | succ i' =>
      simp only [List.getElem?_cons_succ] at h
      show a :: rest = a :: rest.take i' ++ x :: rest.drop (i' + 1)
      rw [List.cons_append, ← ih i' h]

theorem picsSum_textOnly (f : Nat → Run → Run) (hf : ∀ i r, (f i r).pics = r.pics)
    (k : Nat) (l : List Run) :
    ((applyIdx f k l).map fun r => r.pics.length).sum =
      (l.map fun r => r.pics.length).sum := by
  induction l generalizing k with
  | nil => rfl
  | cons r rest ih => simp [applyIdx, hf, ih]

theorem logicalText_textPreserving (f : Nat → Run → Run)
    (hf : ∀ i r, (f i r).text = r.text) (k : Nat) (l : List Run) :
    logicalText (applyIdx f k l) = logicalText l := by
  induction l generalizing k with
  | nil => rfl
  | cons r rest ih => simp [applyIdx, logicalText_cons, hf, ih]

theorem spliceClear_length (runs : List Run) (si sc ei ec : Nat) :
    (spliceClear runs si sc ei ec).length = runs.length := by
  unfold spliceClear
  split <;> exact applyIdx_length _ _ _

theorem spliceClear_picsSum (runs : List Run) (si sc ei ec : Nat) :
    ((spliceClear runs si sc ei ec).map fun r => r.pics.length).sum =
      (runs.map fun r => r.pics.length).sum := by
  unfold spliceClear
  split <;> refine picsSum_textOnly _ ?_ 0 runs <;> intro i r <;> split_ifs <;> rfl

/-- The image-pass clearing splice removes exactly the characters of the
span `[s, e)` from the logical text. -/
theorem spliceClear_logicalText (runs : List Run) (s e si sc ei ec : Nat)
    (hs : (char_to_run runs)[s]? = some (si, sc))
    (he : (char_to_run runs)[e - 1]? = some (ei, ec))
    (hse : s < e) :
    logicalText (spliceClear runs si sc ei ec) =
      (logicalText runs).take s ++ (logicalText runs).drop e := by
  obtain ⟨r1, hr1, hc1, hp1⟩ := char_to_run_getElem? runs s si sc hs
  obtain ⟨r2, hr2, hc2, hp2⟩ := char_to_run_getElem? runs (e - 1) ei ec he
  have hsei : si ≤ ei := char_to_run_mono runs s (e - 1) si sc ei ec hs he (by omega)
  by_cases heq : si = ei
  · subst heq
    have hrr : r2 = r1 := by
      rw [hr1] at hr2
      exact (Option.some.injEq _ _).mp hr2.symm
    subst hrr
    unfold spliceClear
    rw [if_pos rfl,
      applyIdx_set_form (fun x => { x with text := x.text.take sc ++ x.text.drop (ec + 1) })
        si runs r2 hr1]
    have htake := logicalText_take runs si sc r2 hr1 (le_of_lt hc1)
    have hdrop := logicalText_drop runs si (ec + 1) r2 hr1 (by omega)
    have he1 : e = prefLen runs si + (ec + 1) := by omega
    rw [hp1, htake, he1, hdrop]
    simp only [logicalText_append, logicalText_cons, logicalText_nil]
    simp [List.append_assoc]
  · have hlt : si < ei := by omega
    unfold spliceClear
    rw [if_neg heq,
      applyIdx_multi_form (fun x => { x with text := x.text.take sc })
        (fun x => { x with text := x.text.drop (ec + 1) }) si ei runs r1 r2 hlt hr1 hr2]
    have htake := logicalText_take runs si sc r1 hr1 (le_of_lt hc1)
    have hdrop := logicalText_drop runs ei (ec + 1) r2 hr2 (by omega)
    have he1 : e = prefLen runs ei + (ec + 1) := by omega
    rw [hp1, htake, he1, hdrop]
    simp only [logicalText_append, logicalText_cons, logicalText_nil, logicalText_map_clear]
    simp [List.append_assoc]

theorem take_drop_frame (T X : List Char) (s p k : Nat) (hpk : p + k ≤ s)
    (hsT : s ≤ T.length) :
    ((T.take s ++ X).drop p).take k = (T.drop p).take k := by
  rw [List.drop_append_eq_append_drop, List.take_append_eq_append_take]
  have hlen : (T.take s).length = s := by
    rw [List.length_take]
    omega
  have h1 : ((T.take s).drop p).length = s - p := by
    rw [List.length_drop, hlen]
  rw [hlen, h1]
  have hk0 : k - (s - p) = 0 := by omega
  rw [hk0]
  simp only [List.take_zero, List.append_nil]
  rw [List.drop_take, List.take_take, min_eq_left (by omega)]

/-- Evaluate one successful iteration of the image loop: the head match of
the reversed list resolves, its span is cleared, and the box-fit picture is
added to the span's first run, returning immediately. -/
theorem imgGo_insert (images : List (List Char × ImgBytes)) (para : Para)
    (s e : Nat) (nm : List Char) (rest : List (Nat × Nat × List Char)) (w h : Nat)
    (si sc ei ec : Nat)
    (hlk : images.lookup nm = some (ImgBytes.valid w h))
    (hctrne : ¬ (char_to_run para.runs = []))
    (hs : (char_to_run para.runs)[s]? = some (si, sc))
    (he : (char_to_run para.runs)[e - 1]? = some (ei, ec)) :
    imgGo images para (char_to_run para.runs) ((s, e, nm) :: rest) =
      .ok ({ para with
               runs := applyIdx
                 (fun k r =>
                   if k = si then { r with pics := r.pics ++ [calculate_image_dimensions (ImgBytes.valid w h) ((IMAGE_WIDTHS.lookup nm).getD 6)] }
                   else r)
                 0 (spliceClear para.runs si sc ei ec) }, true) := by
  unfold imgGo
  rw [hlk]
  dsimp only
  rw [if_neg hctrne, hs, he]

/-- **C10.** One invocation of the image pass inserts at most one image: the
matches are visited last-to-first by start offset and the pass returns
immediately after the first successful insertion.  When the logical text
holds two or more image tokens whose names are all present in the image
map, only the final (greatest-start-offset) token is replaced — its span is
removed from the logical text and exactly one picture is added — while
every earlier image token's characters are left verbatim. -/
theorem image_pass_single_insertion (para : Para) (images : List (List Char × ImgBytes))
    (ms0 : List (Nat × Nat × List Char)) (s e : Nat) (nm : List Char) (w h : Nat)
    (hscan : imageScan (logicalText para.runs) = ms0 ++ [(s, e, nm)])
    (hms0 : ¬ (ms0 = []))
    (hg : containsSub imgGuard (logicalText para.runs) = true)
    (hall : ∀ m ∈ ms0, ¬ (images.lookup m.2.2 = none))
    (hlast : images.lookup nm = some (ImgBytes.valid w h)) :
    ∃ q, replace_image_placeholders_in_paragraph para images = .ok (q, true) ∧
      logicalText q.runs =
        (logicalText para.runs).take s ++ (logicalText para.runs).drop e ∧
      ((q.runs.map fun r => r.pics.length).sum) =
        ((para.runs.map fun r => r.pics.length).sum) + 1 ∧
      (∀ m ∈ ms0, ((logicalText q.runs).drop m.1).take (m.2.1 - m.1) =
        ((logicalText para.runs).drop m.1).take (m.2.1 - m.1)) := by
  have hm_last : (s, e, nm) ∈ imageScan (logicalText para.runs) := by
    rw [hscan]
    simp
  obtain ⟨-, hse0, hee0⟩ :=
    scanImgAux_bounds (logicalText para.runs).length (logicalText para.runs) 0 _ hm_last
  have hse : s < e := hse0
  have hee : e ≤ (logicalText para.runs).length := by
    have : ((s, e, nm).2.1 : Nat) ≤ 0 + (logicalText para.runs).length := hee0
    simpa using this
  have hft : ¬ (logicalText para.runs = []) := by
    intro h0
    rw [h0] at hee
    simp at hee
    omega
  have hctrlen : (char_to_run para.runs).length = (logicalText para.runs).length :=
    char_to_run_length para.runs
  have hctrne : ¬ (char_to_run para.runs = []) := by
    intro h0
    rw [h0] at hctrlen
    simp at hctrlen
    omega
  have hslt : s < (char_to_run para.runs).length := by omega
  have helt : e - 1 < (char_to_run para.runs).length := by omega
  obtain ⟨⟨si, sc⟩, hs'⟩ : ∃ p, (char_to_run para.runs)[s]? = some p :=
    ⟨(char_to_run para.runs)[s], List.getElem?_eq_getElem hslt⟩
  obtain ⟨⟨ei, ec⟩, he'⟩ : ∃ p, (char_to_run para.runs)[e - 1]? = some p :=
    ⟨(char_to_run para.runs)[e - 1], List.getElem?_eq_getElem helt⟩
  have hrev : (imageScan (logicalText para.runs)).reverse = (s, e, nm) :: ms0.reverse := by
    rw [hscan]
    simp
  have hpicsf : ∀ (i : Nat) (r : Run),
      ((fun k r => if k = si then { r with pics := r.pics ++ [calculate_image_dimensions (ImgBytes.valid w h) ((IMAGE_WIDTHS.lookup nm).getD 6)] }
        else r) i r).text = r.text := by
    intro i r
    by_cases hi : i = si <;> simp [hi]
  have heval : replace_image_placeholders_in_paragraph para images =
      .ok ({ para with
               runs := applyIdx
                 (fun k r =>
                   if k = si then { r with pics := r.pics ++ [calculate_image_dimensions (ImgBytes.valid w h) ((IMAGE_WIDTHS.lookup nm).getD 6)] }
                   else r)
                 0 (spliceClear para.runs si sc ei ec) }, true) := by
    unfold replace_image_placeholders_in_paragraph
    dsimp only
    rw [if_neg (by simp [hft, hg]), hrev,
      imgGo_insert images para s e nm ms0.reverse w h si sc ei ec hlast hctrne hs' he']
  obtain ⟨rsi, hrsi⟩ : ∃ r, (spliceClear para.runs si sc ei ec)[si]? = some r := by
    obtain ⟨r1, hr1, -, -⟩ := char_to_run_getElem? para.runs s si sc hs'
    have hsib : si < para.runs.length := (List.getElem?_eq_some.mp hr1).1
    have : si < (spliceClear para.runs si sc ei ec).length := by
      rw [spliceClear_length]
      omega
    exact ⟨_, List.getElem?_eq_getElem this⟩
  refine ⟨_, heval, ?_, ?_, ?_⟩
  · rw [logicalText_textPreserving _ hpicsf 0 _]
    exact spliceClear_logicalText para.runs s e si sc ei ec hs' he' hse
  · dsimp only
    rw [applyIdx_set_form _ si _ rsi hrsi]
    conv_rhs => rw [show ((para.runs.map fun r => r.pics.length).sum) =
      (((spliceClear para.runs si sc ei ec).map fun r => r.pics.length).sum) from
        (spliceClear_picsSum _ _ _ _ _).symm]
    conv_rhs => rw [list_eq_take_cons_drop _ si rsi hrsi]
    simp
    omega
  · intro m hmem
    obtain ⟨-, hm2, -⟩ :=
      scanImgAux_bounds (logicalText para.runs).length (logicalText para.runs) 0 m
        (by show m ∈ imageScan (logicalText para.runs)
            rw [hscan]
            exact List.mem_append_left _ hmem)
    have hpw : List.Pairwise (fun a b => a.2.1 ≤ b.1)
        (imageScan (logicalText para.runs)) :=
      scanImgAux_pairwise _ _ 0
    rw [hscan] at hpw
    have hme : m.2.1 ≤ s := by
      have := (List.pairwise_append.mp hpw).2.2 m hmem (s, e, nm) (by simp)
      simpa using this
    rw [logicalText_textPreserving _ hpicsf 0 _,
      spliceClear_logicalText para.runs s e si sc ei ec hs' he' hse]
    exact take_drop_frame _ _ s m.1 (m.2.1 - m.1) (by omega) (by omega)

/-- Witness for C10: a paragraph holding two image tokens, both present in
the image map; only `IMAGE_SITE_PLAN` (the later token) is inserted. -/
theorem image_pass_single_insertion_witness :
    ∃ q, replace_image_placeholders_in_paragraph
        { runs := [{ text := ("a\x7b\x7bIMAGE_AERIAL_MAP\x7d\x7db\x7b\x7bIMAGE_SITE_PLAN\x7d\x7dc").toList }] }
        [(("IMAGE_AERIAL_MAP").toList, ImgBytes.valid 100 100),
         (("IMAGE_SITE_PLAN").toList, ImgBytes.valid 100 100)] = .ok (q, true) ∧
      logicalText q.runs =
        (logicalText [{ text := ("a\x7b\x7bIMAGE_AERIAL_MAP\x7d\x7db\x7b\x7bIMAGE_SITE_PLAN\x7d\x7dc").toList }]).take 22 ++
        (logicalText [{ text := ("a\x7b\x7bIMAGE_AERIAL_MAP\x7d\x7db\x7b\x7bIMAGE_SITE_PLAN\x7d\x7dc").toList }]).drop 41 ∧
      ((q.runs.map fun r => r.pics.length).sum) =
        ((([{ text := ("a\x7b\x7bIMAGE_AERIAL_MAP\x7d\x7db\x7b\x7bIMAGE_SITE_PLAN\x7d\x7dc").toList }] : List Run).map fun r => r.pics.length).sum) + 1 ∧
      (∀ m ∈ [((1 : Nat), (21 : Nat), ("IMAGE_AERIAL_MAP").toList)],
        ((logicalText q.runs).drop m.1).take (m.2.1 - m.1) =
        ((logicalText [{ text := ("a\x7b\x7bIMAGE_AERIAL_MAP\x7d\x7db\x7b\x7bIMAGE_SITE_PLAN\x7d\x7dc").toList }]).drop m.1).take (m.2.1 - m.1)) :=
  image_pass_single_insertion
    { runs := [{ text := ("a\x7b\x7bIMAGE_AERIAL_MAP\x7d\x7db\x7b\x7bIMAGE_SITE_PLAN\x7d\x7dc").toList }] }
    [(("IMAGE_AERIAL_MAP").toList, ImgBytes.valid 100 100),
     (("IMAGE_SITE_PLAN").toList, ImgBytes.valid 100 100)]
    [(1, 21, ("IMAGE_AERIAL_MAP").toList)] 22 41 (("IMAGE_SITE_PLAN").toList) 100 100
    (by decide) (by decide) (by decide) (by decide) (by decide)

/-! ## Claims about image-decode failures -/

/-- Counterexample to **C5** as stated: a document with two paragraphs, the
first holding an image token whose base64 payload fails to decode and the
second holding a perfectly good image token.  The failure does not abort
only the one insertion: the whole fill returns the error (named after the
offending token), and the second image token is never processed, so the
rest of the document does not complete. -/
theorem image_decode_error_counterexample :
    process_paragraphs []
      [(("IMAGE_AERIAL_MAP").toList, ImgBytes.b64Invalid),
       (("IMAGE_SITE_PLAN").toList, ImgBytes.valid 10 10)]
      [{ runs := [{ text := ("\x7b\x7bIMAGE_AERIAL_MAP\x7d\x7d").toList }] },
       { runs := [{ text := ("\x7b\x7bIMAGE_SITE_PLAN\x7d\x7d").toList }] }] =
      .error (procErr (("IMAGE_AERIAL_MAP").toList)) := rfl

/-- **C5 (amended).** A failure while filling an image token is surfaced as
an error carrying the offending token's name, and it aborts the entire
document fill: once one paragraph's pass raises, every later paragraph —
including every other image token — is left unprocessed. -/
theorem image_decode_error_aborts_fill (p : Para) (rest : List Para) (qs : List Para)
    (q : Para) (b : Bool) (e : List Char)
    (placeholders : List (List Char × List Char)) (images : List (List Char × ImgBytes))
    (h1 : replace_placeholders_in_paragraph p placeholders = some (q :: qs, b))
    (h2 : replace_image_placeholders_in_paragraph q images = .error e) :
    process_paragraphs placeholders images (p :: rest) = .error e := by
  unfold process_paragraphs processPara
  rw [h1]
  dsimp only
  rw [h2]

/-- Witness for C5 (amended) at the counterexample document: the error names
the failing token `IMAGE_AERIAL_MAP`. -/
theorem image_decode_error_aborts_fill_witness :
    process_paragraphs []
      [(("IMAGE_AERIAL_MAP").toList, ImgBytes.b64Invalid),
       (("IMAGE_LTV_LTC").toList, ImgBytes.valid 30 30)]
      [{ runs := [{ text := ("x\x7b\x7bIMAGE_AERIAL_MAP\x7d\x7dy").toList }] },
       { runs := [{ text := ("\x7b\x7bIMAGE_LTV_LTC\x7d\x7d").toList }] }] =
      .error (procErr (("IMAGE_AERIAL_MAP").toList)) :=
  image_decode_error_aborts_fill _ _ [] _ false _ _ _ rfl rfl

/-- **C6.** For every decodable image with positive intrinsic dimensions and
every preferred width, the box-fit scaler (the width-then-height-then-width
clamping sequence of `calculate_image_dimensions`) returns a pair `(w, h)`
with `w ≤ MAX_WIDTH_INCHES`, `h ≤ MAX_HEIGHT_INCHES`, and the intrinsic
aspect ratio preserved exactly: `h * w0 = w * h0`. -/
theorem calculate_image_dimensions_box_fit (ow oh : Nat) (p : ℚ)
    (hw : 0 < ow) (hh : 0 < oh) :
    (calculate_image_dimensions (ImgBytes.valid ow oh) p).1 ≤ MAX_WIDTH_INCHES ∧
    (calculate_image_dimensions (ImgBytes.valid ow oh) p).2 ≤ MAX_HEIGHT_INCHES ∧
    (calculate_image_dimensions (ImgBytes.valid ow oh) p).2 * (ow : ℚ) =
      (calculate_image_dimensions (ImgBytes.valid ow oh) p).1 * (oh : ℚ) := by
  have how : (ow : ℚ) ≠ 0 := by positivity
  have hoh : (0 : ℚ) < (oh : ℚ) := by positivity
  have haspect : (0 : ℚ) < (oh : ℚ) / (ow : ℚ) := by positivity
  unfold calculate_image_dimensions
  have hw0 : ¬ (ow = 0) := by omega
  simp only [hw0, if_false]
  split
  · rename_i htall
    split
    · rename_i hwide
      refine ⟨le_refl _, ?_, by field_simp⟩
      have : MAX_WIDTH_INCHES < MAX_HEIGHT_INCHES / ((oh : ℚ) / (ow : ℚ)) := hwide
      have := (lt_div_iff₀ haspect).mp this
      linarith
    · rename_i hwide
      refine ⟨le_of_not_lt hwide, le_refl _, by field_simp⟩
  · rename_i htall
    refine ⟨min_le_right _ _, le_of_not_lt htall, by field_simp⟩

/-- Witness for C6 at a concrete image: 1300 × 1000 pixels, preferred width 5. -/
theorem calculate_image_dimensions_box_fit_witness :
    (calculate_image_dimensions (ImgBytes.valid 1300 1000) 5).1 ≤ MAX_WIDTH_INCHES ∧
    (calculate_image_dimensions (ImgBytes.valid 1300 1000) 5).2 ≤ MAX_HEIGHT_INCHES ∧
    (calculate_image_dimensions (ImgBytes.valid 1300 1000) 5).2 * ((1300 : Nat) : ℚ) =
      (calculate_image_dimensions (ImgBytes.valid 1300 1000) 5).1 * ((1000 : Nat) : ℚ) :=
  calculate_image_dimensions_box_fit 1300 1000 5 (by decide) (by decide)

end TemplateFiller
